import Mathlib

/-!
# Unplayer playback queue (`src/queue.cpp`) and playlist model (`src/playlistmodel.cpp`)

A shallow embedding of `Unplayer::Queue`, followed by one of `Unplayer::PlaylistModel`.

* A `QueueTrack*` is modelled by its heap address (`TrackPtr`); the records
  themselves live in `m_heap`, which `new` extends and `delete` shrinks.
* `QList<QueueTrack*>` is a `List TrackPtr`; `QList::at` and `QList::takeAt`
  with an index that is not a valid position, and `qrand() % 0`, are
  undefined behaviour in the source and are modelled by `none`.
* `int` values are modelled by `Int`.  Every list here is far shorter than
  `2^31` and the arithmetic in the source is `± 1` on an index, so no
  wrap-around is modelled.
* Qt signals (`emit ...`) carry no queue state and are left out.
* `qrand()` is an explicit argument: the value the generator returns for the
  call.
-/

namespace Unplayer

/-- Address of a heap allocated `QueueTrack` (the value of a `QueueTrack*`). -/
abbrev TrackPtr := Nat

/-- The keys of the `QVariantMap` that the `QueueTrack` constructor reads. -/
structure TrackMap where
  title : String
  url : String
  duration : Int
  artist : String
  album : String
  rawArtist : String
  rawAlbum : String
deriving DecidableEq, Repr

/-- The record `struct QueueTrack`. -/
structure QueueTrack where
  title : String
  url : String
  duration : Int
  artist : String
  album : String
  mediaArt : String
deriving DecidableEq, Repr

/-- The constructor `QueueTrack::QueueTrack(const QVariantMap&)`.  `Utils::mediaArt` is
declared in `utils.h`, which is not part of the sources, and is taken as the
argument `mediaArt`. -/
def QueueTrack.ofMap (mediaArt : String → String → String → String) (trackMap : TrackMap) :
    QueueTrack :=
  { title := trackMap.title
    url := trackMap.url
    duration := trackMap.duration
    artist := trackMap.artist
    album := trackMap.album
    mediaArt := mediaArt trackMap.rawArtist trackMap.rawAlbum trackMap.url }

/-- The data members of `class Queue`, together with the heap cells its tracks occupy
(`m_heap`) and the next address `new` hands out (`m_alloc`). -/
structure Queue where
  m_tracks : List TrackPtr
  m_notPlayedTracks : List TrackPtr
  m_currentIndex : Int
  m_shuffle : Bool
  m_repeat : Bool
  m_heap : List (TrackPtr × QueueTrack)
  m_alloc : Nat
deriving DecidableEq, Repr

/-- The function `QList::at(int i)`: the element at position `i`; undefined (`none`) unless
`0 ≤ i < length`. -/
def listAt (l : List TrackPtr) (i : Int) : Option TrackPtr :=
  if 0 ≤ i then l[i.toNat]? else none

/-- The function `QList::indexOf(value)`: the position of the first occurrence, `-1` if
there is none. -/
def listIndexOf (l : List TrackPtr) (x : TrackPtr) : Int :=
  if l.indexOf x < l.length then (l.indexOf x : Int) else -1

/-- The constructor `Queue::Queue`: no tracks, `m_currentIndex(-1)`, both flags `false`. -/
def Queue.init : Queue :=
  { m_tracks := []
    m_notPlayedTracks := []
    m_currentIndex := -1
    m_shuffle := false
    m_repeat := false
    m_heap := []
    m_alloc := 0 }

/-- The member `Queue::setCurrentIndex(int index)`: stores the index as given. -/
def Queue.setCurrentIndex (q : Queue) (index : Int) : Queue :=
  { q with m_currentIndex := index }

/-- The member `Queue::resetNotPlayedTracks()`: `m_notPlayedTracks = m_tracks`. -/
def Queue.resetNotPlayedTracks (q : Queue) : Queue :=
  { q with m_notPlayedTracks := q.m_tracks }

/-- The member `Queue::setShuffle(bool shuffle)`. -/
def Queue.setShuffle (q : Queue) (shuffle : Bool) : Queue :=
  let q1 := { q with m_shuffle := shuffle }
  if !shuffle then q1.resetNotPlayedTracks else q1

/-- The member `Queue::setRepeat(bool repeat)`. -/
def Queue.setRepeat (q : Queue) (repeat_ : Bool) : Queue :=
  let q1 := { q with m_repeat := repeat_ }
  if q1.m_shuffle && !repeat_ then q1.resetNotPlayedTracks else q1

/-- One turn of the loop of `Queue::add`: `new QueueTrack(map)` takes the next free
address, and the pointer is appended to `m_tracks` and to `m_notPlayedTracks`. -/
def Queue.addOne (mediaArt : String → String → String → String) (q : Queue)
    (trackMap : TrackMap) : Queue :=
  let track : TrackPtr := q.m_alloc
  { q with
    m_tracks := q.m_tracks ++ [track]
    m_notPlayedTracks := q.m_notPlayedTracks ++ [track]
    m_heap := q.m_heap ++ [(track, QueueTrack.ofMap mediaArt trackMap)]
    m_alloc := q.m_alloc + 1 }

/-- The member `Queue::add(const QVariantList &trackList)`: the loop over the list (the
guard `!trackList.isEmpty()` only skips a loop that would not run). -/
def Queue.add (mediaArt : String → String → String → String) (q : Queue)
    (trackList : List TrackMap) : Queue :=
  if !trackList.isEmpty then trackList.foldl (Queue.addOne mediaArt) q else q

/-- The member `Queue::remove(int index)`.  `m_tracks.takeAt(index)` needs a valid
position. -/
def Queue.remove (q : Queue) (index : Int) : Option Queue :=
  match listAt q.m_tracks index with
  | none => none
  | some track =>
    let q1 : Queue :=
      { q with
        m_tracks := q.m_tracks.eraseIdx index.toNat
        m_notPlayedTracks := q.m_notPlayedTracks.erase track
        m_heap := q.m_heap.filter (fun c => c.1 != track) }
    if index < q1.m_currentIndex then
      some (q1.setCurrentIndex (q1.m_currentIndex - 1))
    else if index = q1.m_currentIndex then
      if q1.m_tracks.isEmpty then some (q1.setCurrentIndex (-1)) else some q1
    else
      some q1

/-- The member `Queue::clear()`: deletes the tracks and clears both lists. -/
def Queue.clear (q : Queue) : Queue :=
  { q with
    m_tracks := []
    m_notPlayedTracks := []
    m_heap := q.m_heap.filter (fun c => !(q.m_tracks.contains c.1)) }

/-- The statement
`setCurrentIndex(m_tracks.indexOf(m_notPlayedTracks.at(qrand() % m_notPlayedTracks.length())))`
shared by `next` and `nextOnEos`: undefined when the not-played list is empty. -/
def Queue.pickNotPlayed (q : Queue) (qrand : Nat) : Option Queue :=
  if q.m_notPlayedTracks.length = 0 then none
  else
    match listAt q.m_notPlayedTracks ((qrand % q.m_notPlayedTracks.length : Nat) : Int) with
    | none => none
    | some track => some (q.setCurrentIndex (listIndexOf q.m_tracks track))

/-- The member `Queue::next()`. -/
def Queue.next (q : Queue) (qrand : Nat) : Option Queue :=
  if q.m_shuffle then
    let q1 := if q.m_notPlayedTracks.length = 1 then q.resetNotPlayedTracks else q
    match listAt q1.m_tracks q1.m_currentIndex with
    | none => none
    | some track =>
      Queue.pickNotPlayed { q1 with m_notPlayedTracks := q1.m_notPlayedTracks.erase track } qrand
  else
    if q.m_currentIndex = (q.m_tracks.length : Int) - 1 then
      some (q.setCurrentIndex 0)
    else
      some (q.setCurrentIndex (q.m_currentIndex + 1))

/-- The member `Queue::nextOnEos()`: the returned `bool` and the state it leaves. -/
def Queue.nextOnEos (q : Queue) (qrand : Nat) : Option (Bool × Queue) :=
  if q.m_shuffle then
    match listAt q.m_tracks q.m_currentIndex with
    | none => none
    | some track =>
      let q1 : Queue := { q with m_notPlayedTracks := q.m_notPlayedTracks.erase track }
      if q1.m_notPlayedTracks.length = 0 then
        if q1.m_repeat then
          let q2 := q1.resetNotPlayedTracks
          let q3 : Queue := { q2 with m_notPlayedTracks := q2.m_notPlayedTracks.erase track }
          (Queue.pickNotPlayed q3 qrand).map (fun r => (true, r))
        else
          some (false, q1)
      else
        (Queue.pickNotPlayed q1 qrand).map (fun r => (true, r))
  else
    if q.m_currentIndex = (q.m_tracks.length : Int) - 1 then
      if q.m_repeat then some (true, q.setCurrentIndex 0) else some (false, q)
    else
      some (true, q.setCurrentIndex (q.m_currentIndex + 1))

/-- The member `Queue::previous()`. -/
def Queue.previous (q : Queue) : Queue :=
  if q.m_shuffle then q
  else if q.m_currentIndex = 0 then q.setCurrentIndex ((q.m_tracks.length : Int) - 1)
  else q.setCurrentIndex (q.m_currentIndex - 1)

/-- An editing request: `add(trackList)` or `remove(index)`. -/
inductive EditOp where
  | add (trackList : List TrackMap)
  | remove (index : Int)
deriving DecidableEq, Repr

/-- Applies one editing request; undefined when `remove` is undefined. -/
def Queue.applyEdit (mediaArt : String → String → String → String) (q : Queue) :
    EditOp → Option Queue
  | .add trackList => some (q.add mediaArt trackList)
  | .remove index => q.remove index

/-- Applies editing requests from left to right. -/
def Queue.runEdits (mediaArt : String → String → String → String) (q : Queue) :
    List EditOp → Option Queue
  | [] => some q
  | op :: ops =>
    match q.applyEdit mediaArt op with
    | none => none
    | some q1 => Queue.runEdits mediaArt q1 ops

/-- Calls `nextOnEos` once per random draw and lists, for each call, the returned `bool`
with the state the call left; undefined as soon as one call is. -/
def Queue.eosRun (q : Queue) : List Nat → Option (List (Bool × Queue))
  | [] => some []
  | r :: rs =>
    match q.nextOnEos r with
    | none => none
    | some (b, q1) =>
      match Queue.eosRun q1 rs with
      | none => none
      | some tr => some ((b, q1) :: tr)

/-- A media-art resolver used in the worked examples: no artwork. -/
def noArt : String → String → String → String := fun _ _ _ => ""

/-- A map entry used in the worked examples. -/
def mapOf (name : String) : TrackMap :=
  { title := name, url := name, duration := 0, artist := "", album := "",
    rawArtist := "", rawAlbum := "" }

/-- A queue over the pointers `tracks` with nothing played yet. -/
def Queue.ofPtrs (tracks : List TrackPtr) (currentIndex : Int) (shuffle repeat_ : Bool) :
    Queue :=
  { m_tracks := tracks
    m_notPlayedTracks := tracks
    m_currentIndex := currentIndex
    m_shuffle := shuffle
    m_repeat := repeat_
    m_heap := tracks.map (fun p => (p, QueueTrack.ofMap noArt (mapOf "")))
    m_alloc := tracks.foldl max 0 + 1 }

/-- Well-formedness of the pointer lists: the queued tracks are distinct live objects (their
addresses lie below the next address `new` hands out) and the not-played list is a
sub-list of the track list. -/
def Queue.WellFormed (q : Queue) : Prop :=
  q.m_tracks.Nodup ∧ (∀ p ∈ q.m_tracks, p < q.m_alloc) ∧
    q.m_notPlayedTracks.Sublist q.m_tracks

/-- Dereferences a `QueueTrack*`: the record stored at the address; undefined for an
address that holds no live record. -/
def Queue.deref (q : Queue) (track : TrackPtr) : Option QueueTrack :=
  q.m_heap.lookup track

/-- The common shape of the getters `Queue::currentTitle() .. Queue::currentMediaArt()`:
`if (m_currentIndex >= 0 && m_currentIndex < m_tracks.length())` the field of
`m_tracks.at(m_currentIndex)`, otherwise the default value. -/
def Queue.currentField {α : Type} (q : Queue) (field : QueueTrack → α) (dflt : α) : Option α :=
  if 0 ≤ q.m_currentIndex ∧ q.m_currentIndex < (q.m_tracks.length : Int) then
    match listAt q.m_tracks q.m_currentIndex with
    | none => none
    | some track => (q.deref track).map field
  else some dflt

/-- The member `Queue::currentTitle()`. -/
def Queue.currentTitle (q : Queue) : Option String := q.currentField (fun t => t.title) ""

/-- The member `Queue::currentUrl()`. -/
def Queue.currentUrl (q : Queue) : Option String := q.currentField (fun t => t.url) ""

/-- The member `Queue::currentDuration()`. -/
def Queue.currentDuration (q : Queue) : Option Int := q.currentField (fun t => t.duration) 0

/-- The member `Queue::currentArtist()`. -/
def Queue.currentArtist (q : Queue) : Option String := q.currentField (fun t => t.artist) ""

/-- The member `Queue::currentAlbum()`. -/
def Queue.currentAlbum (q : Queue) : Option String := q.currentField (fun t => t.album) ""

/-- The member `Queue::currentMediaArt()`. -/
def Queue.currentMediaArt (q : Queue) : Option String :=
  q.currentField (fun t => t.mediaArt) ""

/-- A call of one of the public members that change a `Queue`. -/
inductive QueueOp where
  | add (trackList : List TrackMap)
  | remove (index : Int)
  | clear
  | setCurrentIndex (index : Int)
  | setShuffle (shuffle : Bool)
  | setRepeat (repeat_ : Bool)
  | next (qrand : Nat)
  | nextOnEos (qrand : Nat)
  | previous
deriving DecidableEq, Repr

/-- Performs one call; undefined when the member is. -/
def Queue.applyOp (mediaArt : String → String → String → String) (q : Queue) :
    QueueOp → Option Queue
  | .add trackList => some (q.add mediaArt trackList)
  | .remove index => q.remove index
  | .clear => some q.clear
  | .setCurrentIndex index => some (q.setCurrentIndex index)
  | .setShuffle shuffle => some (q.setShuffle shuffle)
  | .setRepeat repeat_ => some (q.setRepeat repeat_)
  | .next qrand => q.next qrand
  | .nextOnEos qrand => (q.nextOnEos qrand).map Prod.snd
  | .previous => some q.previous

/-- Performs calls from left to right. -/
def Queue.runOps (mediaArt : String → String → String → String) (q : Queue) :
    List QueueOp → Option Queue
  | [] => some q
  | op :: ops =>
    match q.applyOp mediaArt op with
    | none => none
    | some q1 => Queue.runOps mediaArt q1 ops

/-- The not-played list read as positions of the track list: the positions, in ascending
order, whose track is in `m_notPlayedTracks`. -/
def Queue.notPlayedIndices (q : Queue) : List Nat :=
  (List.range q.m_tracks.length).filter
    (fun j => match q.m_tracks[j]? with
      | some track => q.m_notPlayedTracks.contains track
      | none => false)

/-! ### The playlist model (`src/playlistmodel.cpp`)

`m_tracks` is a `QList<PlaylistTrack*>` whose records are written in place; every record is
owned by exactly one list position, so the list is modelled as a list of records and a
write through `m_tracks.at(i)` as an update of position `i`.  `tr(...)` is modelled by its
source text. -/

/-- The record `struct PlaylistTrack`.  The constructor gives `duration` no value: it is
`none` until it is assigned. -/
structure PlaylistTrack where
  url : String
  title : String
  artist : String
  unknownArtist : Bool
  album : String
  unknownAlbum : Bool
  duration : Option Int
deriving DecidableEq, Repr

/-- The constructor `PlaylistTrack(const QString &url)`. -/
def PlaylistTrack.ofUrl (url : String) : PlaylistTrack :=
  { url := url, title := "", artist := "", unknownArtist := false, album := "",
    unknownAlbum := false, duration := none }

/-- The columns of a `QSparqlResultRow` that `onQueryFinished` reads: the `QVariant` of each
column, `none` for an invalid one. -/
structure QSparqlResultRow where
  title : Option String
  duration : Option Int
  artist : Option String
  album : Option String
deriving DecidableEq, Repr

/-- A submitted query (`QSparqlResult*`): the locator its text was built from and the
dynamic property `trackIndex` set on it. -/
structure TrackQuery where
  url : String
  trackIndex : Int
deriving DecidableEq, Repr

/-- The data members of `class PlaylistModel`. -/
structure PlaylistModel where
  m_tracks : List PlaylistTrack
  m_queries : List TrackQuery
  m_rowCount : Int
  m_loadedTracks : Int
  m_loaded : Bool
  m_url : String
deriving DecidableEq, Repr

/-- The constructor `PlaylistModel::PlaylistModel()`. -/
def PlaylistModel.init : PlaylistModel :=
  { m_tracks := [], m_queries := [], m_rowCount := 0, m_loadedTracks := 0, m_loaded := false,
    m_url := "" }

/-- The loop of `PlaylistModel::componentComplete`, from loop counter `i` on: a record for
the locator is appended and a query carrying `trackIndex = i` is submitted. -/
def PlaylistModel.submitLoop (m : PlaylistModel) (i : Nat) : List String → PlaylistModel
  | [] => m
  | url :: rest =>
    PlaylistModel.submitLoop
      { m with
        m_tracks := m.m_tracks ++ [PlaylistTrack.ofUrl url]
        m_queries := m.m_queries ++ [{ url := url, trackIndex := (i : Int) }] }
      (i + 1) rest

/-- The member `PlaylistModel::componentComplete()`.  `PlaylistUtils::parsePlaylist` is
declared in `playlistutils.h`, which is not part of the sources; its result for `m_url` is
the argument `tracksList`. -/
def PlaylistModel.componentComplete (m : PlaylistModel) (tracksList : List String) :
    PlaylistModel :=
  if tracksList.isEmpty then { m with m_loaded := true }
  else m.submitLoop 0 tracksList

/-- The value `get` returns: the entries of the `QVariantMap`; `rawArtist` and `rawAlbum`
are `none` for a null `QVariant()`. -/
structure PlaylistEntry where
  title : String
  url : String
  duration : Option Int
  artist : String
  rawArtist : Option String
  album : String
  rawAlbum : Option String
deriving DecidableEq, Repr

/-- The member `PlaylistModel::get(int trackIndex)`; `m_tracks.at` needs a valid position. -/
def PlaylistModel.get (m : PlaylistModel) (trackIndex : Int) : Option PlaylistEntry :=
  if 0 ≤ trackIndex then
    match m.m_tracks[trackIndex.toNat]? with
    | none => none
    | some track =>
      some
        { title := track.title
          url := track.url
          duration := track.duration
          artist := track.artist
          rawArtist := if track.unknownArtist then none else some track.artist
          album := track.album
          rawAlbum := if track.unknownAlbum then none else some track.album }
  else none

/-- The general loop of `PlaylistModel::removeAtIndexes`, from loop counter `i` on:
`index = trackIndexes.at(i) - i`, then `delete m_tracks.takeAt(index)` and `m_rowCount--`.
Undefined when `takeAt` gets an invalid position. -/
def PlaylistModel.removeLoop (m : PlaylistModel) (i : Nat) : List Int → Option PlaylistModel
  | [] => some m
  | x :: rest =>
    let index : Int := x - (i : Int)
    if 0 ≤ index ∧ index < (m.m_tracks.length : Int) then
      PlaylistModel.removeLoop
        { m with m_tracks := m.m_tracks.eraseIdx index.toNat, m_rowCount := m.m_rowCount - 1 }
        (i + 1) rest
    else none

/-- The member `PlaylistModel::removeAtIndexes(const QList<int> &trackIndexes)`. -/
def PlaylistModel.removeAtIndexes (m : PlaylistModel) (trackIndexes : List Int) :
    Option PlaylistModel :=
  if trackIndexes.length = m.m_tracks.length then
    some { m with m_tracks := [], m_rowCount := 0 }
  else m.removeLoop 0 trackIndexes

/-- The writes of `PlaylistModel::onQueryFinished` to the record when the result has a
row. -/
def PlaylistTrack.fill (track : PlaylistTrack) (row : QSparqlResultRow) : PlaylistTrack :=
  let track1 : PlaylistTrack :=
    { track with title := row.title.getD "", duration := some (row.duration.getD 0) }
  let track2 : PlaylistTrack :=
    match row.artist with
    | some artist => { track1 with artist := artist }
    | none => { track1 with artist := "Unknown artist", unknownArtist := true }
  match row.album with
  | some album => { track2 with album := album }
  | none => { track2 with album := "Unknown album", unknownAlbum := true }

/-- The member `PlaylistModel::onQueryFinished()` for the finished query `sender` whose
result holds `rows`.  Undefined when `m_tracks.at(trackIndex)` gets an invalid position. -/
def PlaylistModel.onQueryFinished (m : PlaylistModel) (sender : TrackQuery)
    (rows : List QSparqlResultRow) : Option PlaylistModel :=
  let written : Option (List PlaylistTrack) :=
    match rows with
    | [] => some m.m_tracks
    | row :: _ =>
      if 0 ≤ sender.trackIndex then
        match m.m_tracks[sender.trackIndex.toNat]? with
        | none => none
        | some track => some (m.m_tracks.set sender.trackIndex.toNat (track.fill row))
      else none
  match written with
  | none => none
  | some tracks =>
    let m1 : PlaylistModel :=
      { m with m_tracks := tracks, m_loadedTracks := m.m_loadedTracks + 1 }
    if m1.m_loadedTracks = (m1.m_tracks.length : Int) then
      some { m1 with m_loaded := true, m_rowCount := (m1.m_tracks.length : Int), m_queries := [] }
    else some m1

/-- Delivers finished queries, each with the rows of its result, from left to right. -/
def PlaylistModel.runFinished (m : PlaylistModel) :
    List (TrackQuery × List QSparqlResultRow) → Option PlaylistModel
  | [] => some m
  | e :: es =>
    match m.onQueryFinished e.1 e.2 with
    | none => none
    | some m1 => PlaylistModel.runFinished m1 es

/-- The tracks whose positions, counted from `pos` on, are not in `indexes`, in their
order: what a batch removal is to leave, in the words of the specification. -/
def keepOthers (indexes : List Nat) (pos : Nat) (tracks : List PlaylistTrack) :
    List PlaylistTrack :=
  ((tracks.enumFrom pos).filter (fun p => !(indexes.contains p.1))).map Prod.snd

/-! ## Basic facts about the list helpers -/

theorem listAt_natCast (l : List TrackPtr) (n : Nat) : listAt l (n : Int) = l[n]? := by
  simp [listAt]

theorem listAt_eq_some {l : List TrackPtr} {i : Int} {x : TrackPtr} (h : listAt l i = some x) :
    0 ≤ i ∧ i < l.length ∧ l[i.toNat]? = some x := by
  unfold listAt at h
  split at h
  · rename_i h0
    refine ⟨h0, ?_, h⟩
    have hlt : i.toNat < l.length := (List.getElem?_eq_some.mp h).1
    omega
  · cases h

theorem listAt_of_lt {l : List TrackPtr} {n : Nat} (h : n < l.length) :
    listAt l (n : Int) = some l[n] := by
  rw [listAt_natCast, List.getElem?_eq_getElem h]

theorem addOne_currentIndex (mediaArt : String → String → String → String) (q : Queue)
    (m : TrackMap) : (q.addOne mediaArt m).m_currentIndex = q.m_currentIndex := rfl

theorem foldl_addOne_currentIndex (mediaArt : String → String → String → String)
    (l : List TrackMap) (q : Queue) :
    (l.foldl (Queue.addOne mediaArt) q).m_currentIndex = q.m_currentIndex := by
  induction l generalizing q with
  | nil => rfl
  | cons m ms ih => rw [List.foldl_cons, ih, addOne_currentIndex]

theorem add_currentIndex (mediaArt : String → String → String → String) (q : Queue)
    (l : List TrackMap) : (q.add mediaArt l).m_currentIndex = q.m_currentIndex := by
  unfold Queue.add
  split
  · exact foldl_addOne_currentIndex mediaArt l q
  · rfl

theorem remove_currentIndex_of_neg_one {q q1 : Queue} {index : Int}
    (hq : q.m_currentIndex = -1) (h : q.remove index = some q1) : q1.m_currentIndex = -1 := by
  unfold Queue.remove at h
  split at h
  · cases h
  · rename_i track hat
    have h0 := (listAt_eq_some hat).1
    simp only [hq] at h
    rw [if_neg (by omega), if_neg (by omega)] at h
    cases h
    rfl

theorem runEdits_currentIndex (mediaArt : String → String → String → String)
    (ops : List EditOp) (q q1 : Queue) (hq : q.m_currentIndex = -1)
    (h : Queue.runEdits mediaArt q ops = some q1) : q1.m_currentIndex = -1 := by
  induction ops generalizing q with
  | nil =>
    simp only [Queue.runEdits, Option.some.injEq] at h
    rw [← h]; exact hq
  | cons op ops ih =>
    unfold Queue.runEdits at h
    split at h
    · cases h
    · rename_i q2 hop
      refine ih q2 ?_ h
      cases op with
      | add l =>
        simp only [Queue.applyEdit, Option.some.injEq] at hop
        rw [← hop, add_currentIndex]; exact hq
      | remove i => exact remove_currentIndex_of_neg_one hq hop

/-! ## C1 -/

/-- C1, amended.  For every sequence of `add` and `remove` requests applied to a freshly
constructed queue in which every `remove` gets a valid index, `currentIndex` is `-1` after
each request: it is `-1` whenever the track list is empty, and it stays `-1` when tracks
are present, because `add` never moves it. -/
theorem C1_edits_keep_currentIndex_neg_one (mediaArt : String → String → String → String)
    (ops : List EditOp) (q : Queue)
    (h : Queue.runEdits mediaArt Queue.init ops = some q) :
    q.m_currentIndex = -1 ∧ (q.m_tracks = [] → q.m_currentIndex = -1) := by
  have := runEdits_currentIndex mediaArt ops Queue.init q rfl h
  exact ⟨this, fun _ => this⟩

/-- C1, witness: one `add` of two tracks followed by `remove(0)`. -/
theorem C1_edits_keep_currentIndex_neg_one_witness :
    ∃ q, Queue.runEdits noArt Queue.init [.add [mapOf "A", mapOf "B"], .remove 0] = some q ∧
      q.m_tracks = [1] ∧ q.m_currentIndex = -1 :=
  ⟨_, rfl, rfl,
    (C1_edits_keep_currentIndex_neg_one noArt [.add [mapOf "A", mapOf "B"], .remove 0] _ rfl).1⟩

/-- C1 as stated fails: after `add` of one track to a fresh queue the track list is not
empty, yet `currentIndex` is still `-1`, so it is not in `[0, len(tracks))`. -/
theorem C1_counterexample :
    ∃ q, Queue.runEdits noArt Queue.init [.add [mapOf "A"]] = some q ∧
      q.m_tracks = [0] ∧ q.m_currentIndex = -1 ∧
      ¬ ((q.m_currentIndex = -1 ↔ q.m_tracks = []) ∧
          (q.m_tracks ≠ [] → 0 ≤ q.m_currentIndex ∧ q.m_currentIndex < q.m_tracks.length)) := by
  refine ⟨_, rfl, rfl, rfl, ?_⟩
  decide

/-! ## C2 and C3 -/

theorem remove_of_lt (q : Queue) (n : Nat) (h : n < q.m_tracks.length) :
    q.remove (n : Int) =
      (let q1 : Queue :=
        { q with
          m_tracks := q.m_tracks.eraseIdx n
          m_notPlayedTracks := q.m_notPlayedTracks.erase q.m_tracks[n]
          m_heap := q.m_heap.filter (fun c => c.1 != q.m_tracks[n]) }
      if (n : Int) < q.m_currentIndex then some (q1.setCurrentIndex (q.m_currentIndex - 1))
      else if (n : Int) = q.m_currentIndex then
        if q1.m_tracks.isEmpty then some (q1.setCurrentIndex (-1)) else some q1
      else some q1) := by
  unfold Queue.remove
  rw [listAt_of_lt h]
  simp only [Int.toNat_ofNat]

/-- C2.  If `currentIndex = c` is a valid position and `remove` gets a valid position
`i ≠ c`, then `remove(i)` is defined, `currentIndex` becomes `c - 1` when `i < c` and stays
`c` when `i > c`, the track at the new `currentIndex` is the track that was at `c`, and the
remaining tracks keep their order (position `j` now holds what was at `j` for `j < i`, and
what was at `j + 1` otherwise). -/
theorem C2_remove_other_keeps_current_track (q : Queue) (i : Int)
    (hc0 : 0 ≤ q.m_currentIndex) (hc1 : q.m_currentIndex < q.m_tracks.length)
    (hi0 : 0 ≤ i) (hi1 : i < q.m_tracks.length) (hne : i ≠ q.m_currentIndex) :
    ∃ q1 track, q.remove i = some q1 ∧
      q1.m_currentIndex = (if i < q.m_currentIndex then q.m_currentIndex - 1
        else q.m_currentIndex) ∧
      listAt q.m_tracks q.m_currentIndex = some track ∧
      listAt q1.m_tracks q1.m_currentIndex = some track ∧
      q1.m_tracks.length + 1 = q.m_tracks.length ∧
      ∀ j : Nat, q1.m_tracks[j]? = if (j : Int) < i then q.m_tracks[j]? else q.m_tracks[j + 1]? := by
  obtain ⟨tracks, np, ci, sh, rp, heap, al⟩ := q
  simp only at hc0 hc1 hi1 hne ⊢
  lift i to ℕ using hi0
  lift ci to ℕ using hc0
  have hi : i < tracks.length := by exact_mod_cast hi1
  have hc : ci < tracks.length := by exact_mod_cast hc1
  have hne2 : i ≠ ci := fun h => hne (by rw [h])
  have hlen : (tracks.eraseIdx i).length + 1 = tracks.length := by
    rw [List.length_eraseIdx_of_lt hi]; omega
  have hget : ∀ j : Nat, (tracks.eraseIdx i)[j]? =
      if (j : Int) < (i : Int) then tracks[j]? else tracks[j + 1]? := by
    intro j
    rw [List.getElem?_eraseIdx]
    by_cases hj : j < i
    · rw [if_pos hj, if_pos (by exact_mod_cast hj)]
    · rw [if_neg hj, if_neg (by exact_mod_cast hj)]
  rw [remove_of_lt _ i hi]
  simp only [Queue.setCurrentIndex]
  by_cases hlt : i < ci
  · have hlt2 : (i : Int) < (ci : Int) := by exact_mod_cast hlt
    rw [if_pos hlt2, if_pos hlt2]
    refine ⟨_, tracks[ci], rfl, rfl, listAt_of_lt hc, ?_, hlen, hget⟩
    simp only
    have hcast : ((ci : Int) - 1) = ((ci - 1 : Nat) : Int) := by omega
    rw [hcast, listAt_natCast, List.getElem?_eraseIdx, if_neg (by omega)]
    have : ci - 1 + 1 = ci := by omega
    rw [this, List.getElem?_eq_getElem hc]
  · have hlt2 : ¬ (i : Int) < (ci : Int) := by exact_mod_cast hlt
    rw [if_neg hlt2, if_neg hlt2, if_neg hne]
    refine ⟨_, tracks[ci], rfl, rfl, listAt_of_lt hc, ?_, hlen, hget⟩
    simp only
    rw [listAt_natCast, List.getElem?_eraseIdx, if_pos (by omega), List.getElem?_eq_getElem hc]

/-- C2, witness: `[A, B, C]` (pointers 10, 11, 12) with `currentIndex = 1`; `remove(0)` gives
`[B, C]` with `currentIndex = 0`, and the current track is still `B`. -/
theorem C2_remove_other_keeps_current_track_witness :
    (∃ q1 track, (Queue.ofPtrs [10, 11, 12] 1 false false).remove 0 = some q1 ∧
      q1.m_currentIndex = (if (0 : Int) < (Queue.ofPtrs [10, 11, 12] 1 false false).m_currentIndex
        then (Queue.ofPtrs [10, 11, 12] 1 false false).m_currentIndex - 1
        else (Queue.ofPtrs [10, 11, 12] 1 false false).m_currentIndex) ∧
      listAt (Queue.ofPtrs [10, 11, 12] 1 false false).m_tracks
        (Queue.ofPtrs [10, 11, 12] 1 false false).m_currentIndex = some track ∧
      listAt q1.m_tracks q1.m_currentIndex = some track ∧
      q1.m_tracks.length + 1 = (Queue.ofPtrs [10, 11, 12] 1 false false).m_tracks.length ∧
      ∀ j : Nat, q1.m_tracks[j]? = if (j : Int) < 0
        then (Queue.ofPtrs [10, 11, 12] 1 false false).m_tracks[j]?
        else (Queue.ofPtrs [10, 11, 12] 1 false false).m_tracks[j + 1]?) ∧
    ((Queue.ofPtrs [10, 11, 12] 1 false false).remove 0).map
        (fun q1 => (q1.m_tracks, q1.m_currentIndex, listAt q1.m_tracks q1.m_currentIndex))
      = some ([11, 12], 0, some 11) :=
  ⟨C2_remove_other_keeps_current_track (Queue.ofPtrs [10, 11, 12] 1 false false) 0
    (by decide) (by decide) (by decide) (by decide) (by decide), by decide⟩

/-- C3.  If `currentIndex = c` is a valid position of a list of distinct track pointers,
`remove(c)` is defined; it sets `currentIndex` to `-1` when the list becomes empty and
leaves it equal to `c` otherwise; and when `c` was not the last position, position `c` now
holds the track that was at `c + 1`, which is not the removed track. -/
theorem C3_remove_current (q : Queue) (hnd : q.m_tracks.Nodup)
    (hc0 : 0 ≤ q.m_currentIndex) (hc1 : q.m_currentIndex < q.m_tracks.length) :
    ∃ q1 removed, q.remove q.m_currentIndex = some q1 ∧
      listAt q.m_tracks q.m_currentIndex = some removed ∧
      q1.m_tracks.length + 1 = q.m_tracks.length ∧
      (q1.m_tracks = [] → q1.m_currentIndex = -1) ∧
      (q1.m_tracks ≠ [] → q1.m_currentIndex = q.m_currentIndex) ∧
      (q.m_currentIndex + 1 < q.m_tracks.length →
        ∃ shifted, listAt q.m_tracks (q.m_currentIndex + 1) = some shifted ∧
          listAt q1.m_tracks q.m_currentIndex = some shifted ∧ shifted ≠ removed) := by
  obtain ⟨tracks, np, ci, sh, rp, heap, al⟩ := q
  simp only at hnd hc0 hc1 ⊢
  lift ci to ℕ using hc0
  have hc : ci < tracks.length := by exact_mod_cast hc1
  have hlen : (tracks.eraseIdx ci).length + 1 = tracks.length := by
    rw [List.length_eraseIdx_of_lt hc]; omega
  rw [remove_of_lt _ ci hc]
  simp only [Queue.setCurrentIndex, lt_self_iff_false, if_false, if_true]
  have hlast : (ci : Int) + 1 < (tracks.length : Int) →
      ∃ shifted, listAt tracks ((ci : Int) + 1) = some shifted ∧
        listAt (tracks.eraseIdx ci) (ci : Int) = some shifted ∧ shifted ≠ tracks[ci] := by
    intro h
    have h1 : ci + 1 < tracks.length := by exact_mod_cast h
    refine ⟨tracks[ci + 1], ?_, ?_, ?_⟩
    · exact_mod_cast listAt_of_lt h1
    · rw [listAt_natCast, List.getElem?_eraseIdx, if_neg (by omega),
        List.getElem?_eq_getElem h1]
    · intro heq
      have := (List.Nodup.getElem_inj_iff hnd).mp heq
      omega
  by_cases he : (tracks.eraseIdx ci).isEmpty = true
  · rw [if_pos he]
    refine ⟨_, tracks[ci], rfl, listAt_of_lt hc, hlen, fun _ => rfl, ?_, hlast⟩
    intro hne
    exact absurd (List.isEmpty_iff.mp he) hne
  · rw [if_neg he]
    refine ⟨_, tracks[ci], rfl, listAt_of_lt hc, hlen, ?_, fun _ => rfl, hlast⟩
    intro hnil
    simp only at hnil
    rw [hnil] at he
    exact absurd rfl he

/-- C3, witness: `[A, B, C]` (pointers 10, 11, 12) with `currentIndex = 1`; `remove(1)` leaves
`[A, C]` with `currentIndex = 1`, now denoting `C`. -/
theorem C3_remove_current_witness :
    ∃ q1 removed, (Queue.ofPtrs [10, 11, 12] 1 false false).remove 1 = some q1 ∧
      listAt [10, 11, 12] 1 = some removed ∧
      q1.m_tracks.length + 1 = 3 ∧
      (q1.m_tracks = [] → q1.m_currentIndex = -1) ∧
      (q1.m_tracks ≠ [] → q1.m_currentIndex = 1) ∧
      ((1 : Int) + 1 < 3 →
        ∃ shifted, listAt [10, 11, 12] (1 + 1) = some shifted ∧
          listAt q1.m_tracks 1 = some shifted ∧ shifted ≠ removed) :=
  C3_remove_current (Queue.ofPtrs [10, 11, 12] 1 false false) (by decide) (by decide)
    (by decide)

/-! ## Shuffle: one call of `nextOnEos` -/

theorem listIndexOf_of_mem {l : List TrackPtr} {x : TrackPtr} (h : x ∈ l) :
    listIndexOf l x = (l.indexOf x : Int) ∧ l.indexOf x < l.length ∧
      listAt l (l.indexOf x : Int) = some x := by
  have hlt : l.indexOf x < l.length := List.indexOf_lt_length.mpr h
  refine ⟨?_, hlt, ?_⟩
  · unfold listIndexOf
    rw [if_pos hlt]
  · rw [listAt_natCast]
    exact List.getElem?_indexOf h

/-- The random pick is defined on a non-empty not-played list whose tracks are all queued:
it moves `currentIndex` to the position of a not-played track. -/
theorem pickNotPlayed_of_ne_nil (q : Queue) (r : Nat) (hne : q.m_notPlayedTracks ≠ [])
    (hsub : ∀ t ∈ q.m_notPlayedTracks, t ∈ q.m_tracks) :
    ∃ t, t ∈ q.m_notPlayedTracks ∧
      q.pickNotPlayed r = some (q.setCurrentIndex (q.m_tracks.indexOf t : Int)) ∧
      q.m_tracks.indexOf t < q.m_tracks.length ∧
      listAt q.m_tracks (q.m_tracks.indexOf t : Int) = some t := by
  have hlen : q.m_notPlayedTracks.length ≠ 0 := fun h => hne (List.length_eq_zero.mp h)
  have hr : r % q.m_notPlayedTracks.length < q.m_notPlayedTracks.length :=
    Nat.mod_lt _ (Nat.pos_of_ne_zero hlen)
  have hmem : q.m_notPlayedTracks[r % q.m_notPlayedTracks.length] ∈ q.m_notPlayedTracks :=
    List.getElem_mem hr
  obtain ⟨h1, h2, h3⟩ := listIndexOf_of_mem (hsub _ hmem)
  refine ⟨_, hmem, ?_, h2, h3⟩
  unfold Queue.pickNotPlayed
  rw [if_neg hlen, listAt_of_lt hr]
  simp only [h1]

/-- The random pick is undefined on an empty not-played list (`qrand() % 0`). -/
theorem pickNotPlayed_of_nil (q : Queue) (r : Nat) (h : q.m_notPlayedTracks = []) :
    q.pickNotPlayed r = none := by
  unfold Queue.pickNotPlayed
  rw [h]
  rfl

/-- A call of `nextOnEos` under shuffle that does not exhaust the cycle. -/
theorem nextOnEos_shuffle_step (q : Queue) (r : Nat) (t : TrackPtr)
    (hs : q.m_shuffle = true) (hat : listAt q.m_tracks q.m_currentIndex = some t)
    (hne : q.m_notPlayedTracks.erase t ≠ [])
    (hsub : ∀ x ∈ q.m_notPlayedTracks, x ∈ q.m_tracks) :
    ∃ x, x ∈ q.m_notPlayedTracks.erase t ∧ q.m_tracks.indexOf x < q.m_tracks.length ∧
      listAt q.m_tracks (q.m_tracks.indexOf x : Int) = some x ∧
      q.nextOnEos r = some (true,
        { q with m_notPlayedTracks := q.m_notPlayedTracks.erase t
                 m_currentIndex := (q.m_tracks.indexOf x : Int) }) := by
  obtain ⟨x, hx, hp, hlt, hget⟩ := pickNotPlayed_of_ne_nil
    { q with m_notPlayedTracks := q.m_notPlayedTracks.erase t } r hne
    (fun y hy => hsub y (List.mem_of_mem_erase hy))
  refine ⟨x, hx, hlt, hget, ?_⟩
  have hlen : (q.m_notPlayedTracks.erase t).length ≠ 0 :=
    fun h => hne (List.length_eq_zero.mp h)
  unfold Queue.nextOnEos
  rw [if_pos hs, hat]
  simp only
  rw [if_neg hlen, hp]
  rfl

/-- A call of `nextOnEos` under shuffle without repeat that exhausts the cycle: it returns
`false`, having emptied the not-played list and nothing else. -/
theorem nextOnEos_shuffle_stop (q : Queue) (r : Nat) (t : TrackPtr)
    (hs : q.m_shuffle = true) (hr : q.m_repeat = false)
    (hat : listAt q.m_tracks q.m_currentIndex = some t)
    (he : q.m_notPlayedTracks.erase t = []) :
    q.nextOnEos r = some (false, { q with m_notPlayedTracks := [] }) := by
  unfold Queue.nextOnEos
  rw [if_pos hs, hat]
  simp only [he, List.length_nil, if_true, hr]
  rfl

/-- A call of `nextOnEos` under shuffle with repeat that exhausts the cycle: the
not-played list is reset to all tracks but the current one, and one of them is picked. -/
theorem nextOnEos_shuffle_wrap (q : Queue) (r : Nat) (t : TrackPtr)
    (hs : q.m_shuffle = true) (hr : q.m_repeat = true)
    (hat : listAt q.m_tracks q.m_currentIndex = some t)
    (he : q.m_notPlayedTracks.erase t = []) (hne : q.m_tracks.erase t ≠ []) :
    ∃ x, x ∈ q.m_tracks.erase t ∧ q.m_tracks.indexOf x < q.m_tracks.length ∧
      listAt q.m_tracks (q.m_tracks.indexOf x : Int) = some x ∧
      q.nextOnEos r = some (true,
        { q with m_notPlayedTracks := q.m_tracks.erase t
                 m_currentIndex := (q.m_tracks.indexOf x : Int) }) := by
  obtain ⟨tracks, np, ci, sh, rp, heap, al⟩ := q
  simp only at hs hr hat he hne ⊢
  subst hs hr
  obtain ⟨x, hx, hp, hlt, hget⟩ := pickNotPlayed_of_ne_nil
    ⟨tracks, tracks.erase t, ci, true, true, heap, al⟩ r hne
    (fun y hy => List.mem_of_mem_erase hy)
  refine ⟨x, hx, hlt, hget, ?_⟩
  unfold Queue.nextOnEos
  simp only [if_true, hat, he, List.length_nil, Queue.resetNotPlayedTracks]
  rw [hp]
  rfl

/-! ## Shuffle: the calls of one cycle -/

theorem eosRun_cons (q : Queue) (r : Nat) (rs : List Nat) (b : Bool) (q1 : Queue)
    (h : q.nextOnEos r = some (b, q1)) :
    q.eosRun (r :: rs) = (q1.eosRun rs).map (fun tr => (b, q1) :: tr) := by
  rw [Queue.eosRun, h]
  dsimp only
  cases q1.eosRun rs <;> rfl

/-- While the current track and at least `ds.length` further tracks are not played, the
calls of `nextOnEos` for the draws `ds` all return `true`, each moving `currentIndex` to the
position of a track that was not played before; `qf` is the state they end in. -/
theorem eosRun_cycle_prefix (ds : List Nat) :
    ∀ (q : Queue) (es : List Nat) (t : TrackPtr),
      q.m_shuffle = true → q.m_notPlayedTracks.Nodup →
      (∀ x ∈ q.m_notPlayedTracks, x ∈ q.m_tracks) →
      listAt q.m_tracks q.m_currentIndex = some t → t ∈ q.m_notPlayedTracks →
      ds.length + 1 ≤ q.m_notPlayedTracks.length →
      ∃ (pre : List (Bool × Queue)) (qf : Queue) (tf : TrackPtr),
        pre.length = ds.length ∧
        q.eosRun (ds ++ es) = (qf.eosRun es).map (fun tr => pre ++ tr) ∧
        (∀ x ∈ pre, x.1 = true ∧ x.2.m_tracks = q.m_tracks ∧
          x.2.m_currentIndex ≠ q.m_currentIndex ∧
          ∃ y, y ∈ q.m_notPlayedTracks ∧ listAt q.m_tracks x.2.m_currentIndex = some y) ∧
        (pre.map (fun x => x.2.m_currentIndex)).Nodup ∧
        qf.m_tracks = q.m_tracks ∧ qf.m_shuffle = true ∧ qf.m_repeat = q.m_repeat ∧
        qf.m_notPlayedTracks.Nodup ∧
        (∀ x ∈ qf.m_notPlayedTracks, x ∈ q.m_notPlayedTracks) ∧
        qf.m_notPlayedTracks.length + ds.length = q.m_notPlayedTracks.length ∧
        listAt q.m_tracks qf.m_currentIndex = some tf ∧ tf ∈ qf.m_notPlayedTracks ∧
        qf.m_currentIndex =
          ((pre.map (fun x => x.2.m_currentIndex)).getLast?).getD q.m_currentIndex := by
  induction ds with
  | nil =>
    intro q es t hs hnd hsub hat hmem _
    refine ⟨[], q, t, rfl, ?_, ?_, List.nodup_nil, rfl, hs, rfl, hnd, fun x hx => hx, rfl,
      hat, hmem, rfl⟩
    · simp only [List.nil_append]
      cases q.eosRun es <;> rfl
    · intro x hx
      cases hx
  | cons r rs ih =>
    intro q es t hs hnd hsub hat hmem hlen
    have hel : (q.m_notPlayedTracks.erase t).length = q.m_notPlayedTracks.length - 1 :=
      List.length_erase_of_mem hmem
    simp only [List.length_cons] at hlen
    have hne : q.m_notPlayedTracks.erase t ≠ [] := by
      intro h
      rw [h] at hel
      simp only [List.length_nil] at hel
      omega
    obtain ⟨x, hx, _, hget, hstep⟩ := nextOnEos_shuffle_step q r t hs hat hne hsub
    obtain ⟨pre, qf, tf, hpl, hrun, hpre, hpnd, hft, hfs, hfr, hfnd, hfsub, hflen, hfat,
        hfmem, hfci⟩ :=
      ih { q with m_notPlayedTracks := q.m_notPlayedTracks.erase t
                  m_currentIndex := (q.m_tracks.indexOf x : Int) } es x hs
        (List.Nodup.erase t hnd) (fun y hy => hsub y (List.mem_of_mem_erase hy)) hget hx
        (by simp only; omega)
    simp only at hpre hft hfr hfsub hflen hfat hfci hrun
    have hxt : x ≠ t := fun h => (List.Nodup.not_mem_erase hnd) (h ▸ hx)
    have hne_ci : ∀ (i : Int) (y : TrackPtr), y ∈ q.m_notPlayedTracks.erase t →
        listAt q.m_tracks i = some y → i ≠ q.m_currentIndex := by
      intro i y hy hi heq
      rw [heq, hat] at hi
      have : t = y := Option.some.inj hi
      exact (List.Nodup.not_mem_erase hnd) (this ▸ hy)
    refine ⟨(true, { q with m_notPlayedTracks := q.m_notPlayedTracks.erase t
                            m_currentIndex := (q.m_tracks.indexOf x : Int) }) :: pre,
      qf, tf, by simp only [List.length_cons, hpl], ?_, ?_, ?_, hft, hfs, hfr, hfnd,
      fun y hy => List.mem_of_mem_erase (hfsub y hy), by simp only [List.length_cons]; omega,
      hfat, hfmem, ?_⟩
    · rw [List.cons_append, eosRun_cons q r _ true _ hstep, hrun]
      cases qf.eosRun es <;> rfl
    · intro z hz
      rcases List.mem_cons.mp hz with rfl | hz
      · exact ⟨rfl, rfl, hne_ci _ x hx hget, x, List.mem_of_mem_erase hx, hget⟩
      · obtain ⟨h1, h2, _, y, hy, hyat⟩ := hpre z hz
        exact ⟨h1, h2, hne_ci _ y hy hyat, y, List.mem_of_mem_erase hy, hyat⟩
    · rw [List.map_cons, List.nodup_cons]
      refine ⟨?_, hpnd⟩
      intro hin
      obtain ⟨z, hz, hzeq⟩ := List.mem_map.mp hin
      exact (hpre z hz).2.2.1 hzeq
    · rw [hfci, List.map_cons, List.getLast?_cons]
      rfl

theorem split_last_two (l : List Nat) (n : Nat) (h : l.length = n + 2) :
    ∃ ds r1 r2, l = ds ++ [r1, r2] ∧ ds.length = n := by
  have hd : (l.drop n).length = 2 := by rw [List.length_drop]; omega
  obtain ⟨r1, r2, hr⟩ := List.length_eq_two.mp hd
  refine ⟨l.take n, r1, r2, ?_, ?_⟩
  · rw [← hr, List.take_append_drop]
  · rw [List.length_take]; omega

theorem split_last_one (l : List Nat) (n : Nat) (h : l.length = n + 1) :
    ∃ ds r1, l = ds ++ [r1] ∧ ds.length = n := by
  have hd : (l.drop n).length = 1 := by rw [List.length_drop]; omega
  obtain ⟨r1, hr⟩ := List.length_eq_one.mp hd
  refine ⟨l.take n, r1, ?_, ?_⟩
  · rw [← hr, List.take_append_drop]
  · rw [List.length_take]; omega

theorem erase_eq_nil_of_length_one {l : List TrackPtr} {t : TrackPtr} (hl : l.length = 1)
    (ht : t ∈ l) : l.erase t = [] := by
  apply List.length_eq_zero.mp
  rw [List.length_erase_of_mem ht, hl]

/-! ## C4 and C5 -/

/-- C5.  Shuffle on, repeat off, `N` distinct tracks that are all in the not-played list,
`currentIndex` valid, and any `N + 1` random draws: all `N + 1` calls of `nextOnEos` are
defined; the first `N - 1` return `true` and move `currentIndex` to valid positions that are
pairwise distinct and differ from the starting one; the `N`-th call returns `false` and
leaves the not-played list empty (the cycle is exhausted); the `(N + 1)`-th call returns
`false` and leaves the state, hence `currentIndex` and the track list, unchanged. -/
theorem C5_shuffle_without_repeat_stops (q : Queue) (draws : List Nat)
    (hs : q.m_shuffle = true) (hr : q.m_repeat = false) (hnd : q.m_tracks.Nodup)
    (hperm : q.m_notPlayedTracks.Perm q.m_tracks)
    (hc0 : 0 ≤ q.m_currentIndex) (hc1 : q.m_currentIndex < q.m_tracks.length)
    (hlen : draws.length = q.m_tracks.length + 1) :
    ∃ (pre : List (Bool × Queue)) (qN : Queue),
      q.eosRun draws = some (pre ++ [(false, qN), (false, qN)]) ∧
      pre.length + 1 = q.m_tracks.length ∧
      (∀ x ∈ pre, x.1 = true ∧ x.2.m_tracks = q.m_tracks ∧
        0 ≤ x.2.m_currentIndex ∧ x.2.m_currentIndex < q.m_tracks.length) ∧
      (q.m_currentIndex :: pre.map (fun x => x.2.m_currentIndex)).Nodup ∧
      qN.m_notPlayedTracks = [] ∧ qN.m_tracks = q.m_tracks ∧
      qN.m_currentIndex =
        ((pre.map (fun x => x.2.m_currentIndex)).getLast?).getD q.m_currentIndex := by
  have hcn : q.m_currentIndex.toNat < q.m_tracks.length := by omega
  have hat : listAt q.m_tracks q.m_currentIndex = some q.m_tracks[q.m_currentIndex.toNat] := by
    have := listAt_of_lt hcn
    rwa [Int.toNat_of_nonneg hc0] at this
  have hpl : q.m_notPlayedTracks.length = q.m_tracks.length := hperm.length_eq
  obtain ⟨ds, r1, r2, rfl, hds⟩ :=
    split_last_two draws (q.m_tracks.length - 1) (by omega)
  obtain ⟨pre, qf, tf, hprel, hrun, hpre, hpnd, hft, hfs, hfr, hfnd, hfsub, hflen, hfat,
      hfmem, hfci⟩ :=
    eosRun_cycle_prefix ds q [r1, r2] _ hs (hperm.nodup_iff.mpr hnd)
      (fun x hx => hperm.mem_iff.mp hx) hat (hperm.mem_iff.mpr (List.getElem_mem hcn))
      (by omega)
  have hf1 : qf.m_notPlayedTracks.length = 1 := by omega
  have he := erase_eq_nil_of_length_one hf1 hfmem
  have hfat2 : listAt qf.m_tracks qf.m_currentIndex = some tf := by rw [hft]; exact hfat
  have h1 := nextOnEos_shuffle_stop qf r1 tf hfs (by rw [hfr, hr]) hfat2 he
  have h2 := nextOnEos_shuffle_stop { qf with m_notPlayedTracks := [] } r2 tf hfs
    (by rw [hfr, hr]) hfat2 rfl
  refine ⟨pre, { qf with m_notPlayedTracks := [] }, ?_, by omega, ?_, ?_, rfl, hft, hfci⟩
  · rw [hrun, eosRun_cons _ r1 _ _ _ h1, eosRun_cons _ r2 _ _ _ h2]
    rfl
  · intro x hx
    obtain ⟨hx1, hx2, _, y, _, hy⟩ := hpre x hx
    obtain ⟨hy0, hy1, _⟩ := listAt_eq_some hy
    exact ⟨hx1, hx2, hy0, hy1⟩
  · rw [List.nodup_cons]
    refine ⟨?_, hpnd⟩
    intro hin
    obtain ⟨z, hz, hzeq⟩ := List.mem_map.mp hin
    exact (hpre z hz).2.2.1 hzeq

/-- C5, witness: three tracks, `currentIndex = 0`, draws `0, 0, 1, 5`. -/
theorem C5_shuffle_without_repeat_stops_witness :
    ∃ (pre : List (Bool × Queue)) (qN : Queue),
      (Queue.ofPtrs [10, 11, 12] 0 true false).eosRun [0, 0, 1, 5]
        = some (pre ++ [(false, qN), (false, qN)]) ∧
      pre.length + 1 = (Queue.ofPtrs [10, 11, 12] 0 true false).m_tracks.length ∧
      (∀ x ∈ pre, x.1 = true ∧ x.2.m_tracks = (Queue.ofPtrs [10, 11, 12] 0 true false).m_tracks ∧
        0 ≤ x.2.m_currentIndex ∧
        x.2.m_currentIndex < (Queue.ofPtrs [10, 11, 12] 0 true false).m_tracks.length) ∧
      ((Queue.ofPtrs [10, 11, 12] 0 true false).m_currentIndex ::
        pre.map (fun x => x.2.m_currentIndex)).Nodup ∧
      qN.m_notPlayedTracks = [] ∧
      qN.m_tracks = (Queue.ofPtrs [10, 11, 12] 0 true false).m_tracks ∧
      qN.m_currentIndex = ((pre.map (fun x => x.2.m_currentIndex)).getLast?).getD
        (Queue.ofPtrs [10, 11, 12] 0 true false).m_currentIndex :=
  C5_shuffle_without_repeat_stops (Queue.ofPtrs [10, 11, 12] 0 true false) [0, 0, 1, 5]
    rfl rfl (by decide) (List.Perm.refl _) (by decide) (by decide) rfl

/-- C4, amended.  Shuffle on, repeat on, `N ≥ 2` distinct tracks that are all in the
not-played list, `currentIndex` valid, and any `N` random draws: all `N` calls of
`nextOnEos` are defined and return `true`; the starting `currentIndex` together with the
values produced by the first `N - 1` calls are pairwise distinct valid positions (so every
position is visited once, the starting track counting as visited); the `N`-th call starts
the next cycle: it resets the not-played list to all tracks but the one it leaves, and
moves to a valid position other than the one it was on, whose track is in that list; the
flags stay set. -/
theorem C4_shuffle_with_repeat_cycle (q : Queue) (draws : List Nat)
    (hs : q.m_shuffle = true) (hr : q.m_repeat = true) (hnd : q.m_tracks.Nodup)
    (hperm : q.m_notPlayedTracks.Perm q.m_tracks)
    (hc0 : 0 ≤ q.m_currentIndex) (hc1 : q.m_currentIndex < q.m_tracks.length)
    (hN : 2 ≤ q.m_tracks.length) (hlen : draws.length = q.m_tracks.length) :
    ∃ (pre : List (Bool × Queue)) (qN : Queue),
      q.eosRun draws = some (pre ++ [(true, qN)]) ∧
      pre.length + 1 = q.m_tracks.length ∧
      (∀ x ∈ pre, x.1 = true ∧ x.2.m_tracks = q.m_tracks ∧
        0 ≤ x.2.m_currentIndex ∧ x.2.m_currentIndex < q.m_tracks.length) ∧
      (q.m_currentIndex :: pre.map (fun x => x.2.m_currentIndex)).Nodup ∧
      qN.m_tracks = q.m_tracks ∧
      0 ≤ qN.m_currentIndex ∧ qN.m_currentIndex < q.m_tracks.length ∧
      qN.m_currentIndex ≠
        ((pre.map (fun x => x.2.m_currentIndex)).getLast?).getD q.m_currentIndex ∧
      (∃ left picked,
        listAt q.m_tracks
          (((pre.map (fun x => x.2.m_currentIndex)).getLast?).getD q.m_currentIndex)
            = some left ∧
        qN.m_notPlayedTracks = q.m_tracks.erase left ∧
        listAt q.m_tracks qN.m_currentIndex = some picked ∧
        picked ∈ qN.m_notPlayedTracks) ∧
      qN.m_shuffle = true ∧ qN.m_repeat = true := by
  have hcn : q.m_currentIndex.toNat < q.m_tracks.length := by omega
  have hat : listAt q.m_tracks q.m_currentIndex = some q.m_tracks[q.m_currentIndex.toNat] := by
    have := listAt_of_lt hcn
    rwa [Int.toNat_of_nonneg hc0] at this
  have hpl : q.m_notPlayedTracks.length = q.m_tracks.length := hperm.length_eq
  obtain ⟨ds, r1, rfl, hds⟩ := split_last_one draws (q.m_tracks.length - 1) (by omega)
  obtain ⟨pre, qf, tf, hprel, hrun, hpre, hpnd, hft, hfs, hfr, hfnd, hfsub, hflen, hfat,
      hfmem, hfci⟩ :=
    eosRun_cycle_prefix ds q [r1] _ hs (hperm.nodup_iff.mpr hnd)
      (fun x hx => hperm.mem_iff.mp hx) hat (hperm.mem_iff.mpr (List.getElem_mem hcn))
      (by omega)
  have hf1 : qf.m_notPlayedTracks.length = 1 := by omega
  have he := erase_eq_nil_of_length_one hf1 hfmem
  have hfat2 : listAt qf.m_tracks qf.m_currentIndex = some tf := by rw [hft]; exact hfat
  have htf : tf ∈ qf.m_tracks := by
    rw [hft]; exact hperm.mem_iff.mp (hfsub tf hfmem)
  have hne : qf.m_tracks.erase tf ≠ [] := by
    intro h
    have := List.length_erase_of_mem htf
    rw [h, hft] at this
    simp only [List.length_nil] at this
    omega
  obtain ⟨x, hx, hxlt, hxat, h1⟩ :=
    nextOnEos_shuffle_wrap qf r1 tf hfs (by rw [hfr, hr]) hfat2 he hne
  have hxt : x ≠ tf := by
    intro h
    rw [h] at hx
    exact List.Nodup.not_mem_erase (hft ▸ hnd) hx
  refine ⟨pre, { qf with m_notPlayedTracks := qf.m_tracks.erase tf
                         m_currentIndex := (qf.m_tracks.indexOf x : Int) },
    ?_, by omega, ?_, ?_, hft, ?_, ?_, ?_, ?_, hfs, by rw [← hr, ← hfr]⟩
  · rw [hrun, eosRun_cons _ r1 _ _ _ h1]
    rfl
  · intro z hz
    obtain ⟨hz1, hz2, _, y, _, hy⟩ := hpre z hz
    obtain ⟨hy0, hy1, _⟩ := listAt_eq_some hy
    exact ⟨hz1, hz2, hy0, hy1⟩
  · rw [List.nodup_cons]
    refine ⟨?_, hpnd⟩
    intro hin
    obtain ⟨z, hz, hzeq⟩ := List.mem_map.mp hin
    exact (hpre z hz).2.2.1 hzeq
  · exact Int.ofNat_nonneg _
  · simp only
    rw [← hft]
    exact_mod_cast hxlt
  · rw [← hfci]
    intro heq
    simp only at heq
    rw [← heq, hxat] at hfat2
    exact hxt (Option.some.inj hfat2)
  · refine ⟨tf, x, ?_, ?_, ?_, ?_⟩
    · rw [← hfci]; exact hfat
    · simp only [hft]
    · simp only
      rw [← hft]; exact hxat
    · exact hx

/-- C4, witness: three tracks, `currentIndex = 0`, draws `0, 0, 1`. -/
theorem C4_shuffle_with_repeat_cycle_witness :
    ∃ (pre : List (Bool × Queue)) (qN : Queue),
      (Queue.ofPtrs [10, 11, 12] 0 true true).eosRun [0, 0, 1] = some (pre ++ [(true, qN)]) ∧
      pre.length + 1 = (Queue.ofPtrs [10, 11, 12] 0 true true).m_tracks.length ∧
      (∀ x ∈ pre, x.1 = true ∧ x.2.m_tracks = (Queue.ofPtrs [10, 11, 12] 0 true true).m_tracks ∧
        0 ≤ x.2.m_currentIndex ∧
        x.2.m_currentIndex < (Queue.ofPtrs [10, 11, 12] 0 true true).m_tracks.length) ∧
      ((Queue.ofPtrs [10, 11, 12] 0 true true).m_currentIndex ::
        pre.map (fun x => x.2.m_currentIndex)).Nodup ∧
      qN.m_tracks = (Queue.ofPtrs [10, 11, 12] 0 true true).m_tracks ∧
      0 ≤ qN.m_currentIndex ∧
      qN.m_currentIndex < (Queue.ofPtrs [10, 11, 12] 0 true true).m_tracks.length ∧
      qN.m_currentIndex ≠ ((pre.map (fun x => x.2.m_currentIndex)).getLast?).getD
        (Queue.ofPtrs [10, 11, 12] 0 true true).m_currentIndex ∧
      (∃ left picked,
        listAt (Queue.ofPtrs [10, 11, 12] 0 true true).m_tracks
          (((pre.map (fun x => x.2.m_currentIndex)).getLast?).getD
            (Queue.ofPtrs [10, 11, 12] 0 true true).m_currentIndex) = some left ∧
        qN.m_notPlayedTracks = (Queue.ofPtrs [10, 11, 12] 0 true true).m_tracks.erase left ∧
        listAt (Queue.ofPtrs [10, 11, 12] 0 true true).m_tracks qN.m_currentIndex
          = some picked ∧
        picked ∈ qN.m_notPlayedTracks) ∧
      qN.m_shuffle = true ∧ qN.m_repeat = true :=
  C4_shuffle_with_repeat_cycle (Queue.ofPtrs [10, 11, 12] 0 true true) [0, 0, 1]
    rfl rfl (by decide) (List.Perm.refl _) (by decide) (by decide) (by decide) rfl

/-- C4 as stated fails: with three tracks, `currentIndex = 0` and the draws `0, 0, 1`, the
three calls of `nextOnEos` all return `true` but produce `currentIndex` 1, 2, 1: position 1
is visited twice and position 0 not at all. -/
theorem C4_counterexample :
    ((Queue.ofPtrs [10, 11, 12] 0 true true).eosRun [0, 0, 1]).map
        (fun tr => tr.map (fun x => (x.1, x.2.m_currentIndex)))
      = some [(true, 1), (true, 2), (true, 1)] ∧
    ¬ ([1, 2, 1] : List Int).Nodup := by
  constructor
  · rfl
  · decide

/-- With a single track, shuffle on and repeat on, `nextOnEos` is undefined: after the
reset the current track is taken out again and `qrand()` is reduced modulo zero. -/
theorem nextOnEos_single_track_repeat_undefined (r : Nat) :
    (Queue.ofPtrs [10] 0 true true).nextOnEos r = none := by
  rfl

/-! ## C6 to C10 -/

/-- C6, the code at the failing input.  A queue holding the single track `a` with
`currentIndex = 0`: with shuffle on `next()` is undefined for every random draw, whether
the not-played list is `[a]` or already empty, because the current track is taken out of
the not-played list and `qrand()` is then reduced modulo zero; with shuffle off `next()`
is defined and leaves `currentIndex` at `0`. -/
theorem C6_next_single_track (a : TrackPtr) (np : List TrackPtr) (rp : Bool)
    (heap : List (TrackPtr × QueueTrack)) (al r : Nat) :
    Queue.next ⟨[a], [a], 0, true, rp, heap, al⟩ r = none ∧
    Queue.next ⟨[a], [], 0, true, rp, heap, al⟩ r = none ∧
    Queue.next ⟨[a], np, 0, false, rp, heap, al⟩ r = some ⟨[a], np, 0, false, rp, heap, al⟩ := by
  refine ⟨?_, ?_, rfl⟩
  · simp [Queue.next, Queue.resetNotPlayedTracks, listAt, Queue.pickNotPlayed]
  · simp [Queue.next, listAt, Queue.pickNotPlayed]

/-- C7.  With shuffle off and `currentIndex = c` a valid position of a list of `n` tracks,
`next()` is defined and sets `currentIndex` to `(c + 1) mod n`, that is `0` when `c` is the
last position and `c + 1` otherwise, whatever the repeat flag; it changes nothing else. -/
theorem C7_next_without_shuffle (q : Queue) (r : Nat) (hs : q.m_shuffle = false)
    (hc0 : 0 ≤ q.m_currentIndex) (hc1 : q.m_currentIndex < q.m_tracks.length) :
    q.next r = some { q with m_currentIndex := (q.m_currentIndex + 1) % q.m_tracks.length } ∧
    (q.m_currentIndex + 1) % (q.m_tracks.length : Int) =
      (if q.m_currentIndex = (q.m_tracks.length : Int) - 1 then 0 else q.m_currentIndex + 1) := by
  have hmod : (q.m_currentIndex + 1) % (q.m_tracks.length : Int) =
      (if q.m_currentIndex = (q.m_tracks.length : Int) - 1 then 0
        else q.m_currentIndex + 1) := by
    split
    · rename_i h
      rw [h]
      simp
    · rename_i h
      exact Int.emod_eq_of_lt (by omega) (by omega)
  refine ⟨?_, hmod⟩
  rw [hmod]
  unfold Queue.next
  simp only [hs, Bool.false_eq_true, if_false, Queue.setCurrentIndex]
  split <;> rfl

/-- C7, witness: `[A, B, C]` with `currentIndex = 2`, repeat on: `next()` gives
`currentIndex = 0`. -/
theorem C7_next_without_shuffle_witness :
    ((Queue.ofPtrs [10, 11, 12] 2 false true).next 7
        = some { Queue.ofPtrs [10, 11, 12] 2 false true with
            m_currentIndex := ((Queue.ofPtrs [10, 11, 12] 2 false true).m_currentIndex + 1)
              % (Queue.ofPtrs [10, 11, 12] 2 false true).m_tracks.length } ∧
      ((Queue.ofPtrs [10, 11, 12] 2 false true).m_currentIndex + 1)
          % ((Queue.ofPtrs [10, 11, 12] 2 false true).m_tracks.length : Int) =
        (if (Queue.ofPtrs [10, 11, 12] 2 false true).m_currentIndex
            = ((Queue.ofPtrs [10, 11, 12] 2 false true).m_tracks.length : Int) - 1
          then 0 else (Queue.ofPtrs [10, 11, 12] 2 false true).m_currentIndex + 1)) ∧
    ((Queue.ofPtrs [10, 11, 12] 2 false true).next 7).map (fun q => q.m_currentIndex)
      = some 0 :=
  ⟨C7_next_without_shuffle (Queue.ofPtrs [10, 11, 12] 2 false true) 7 rfl (by decide)
    (by decide), by decide⟩

/-- C8.  With shuffle on, `previous()` returns the state it was given, whatever that state
and the repeat flag are.  With shuffle off and `currentIndex = c` (in particular for every
valid position `c` of a list of `n ≥ 1` tracks), it sets `currentIndex` to `n - 1` when `c = 0` and to `c - 1` otherwise, and
changes nothing else. -/
theorem C8_previous (q : Queue) :
    (q.m_shuffle = true → q.previous = q) ∧
    (q.m_shuffle = false →
      q.previous = { q with m_currentIndex :=
        if q.m_currentIndex = 0 then (q.m_tracks.length : Int) - 1
        else q.m_currentIndex - 1 }) := by
  constructor
  · intro hs
    unfold Queue.previous
    rw [if_pos hs]
  · intro hs
    unfold Queue.previous
    simp only [hs, Bool.false_eq_true, if_false, Queue.setCurrentIndex]
    split <;> rfl

/-- C8, witness: shuffle on leaves a three track queue as it is; shuffle off at position
`0` of three tracks goes to position `2`. -/
theorem C8_previous_witness :
    (Queue.ofPtrs [10, 11, 12] 1 true false).previous = Queue.ofPtrs [10, 11, 12] 1 true false ∧
    (Queue.ofPtrs [10, 11, 12] 0 false false).previous
      = { Queue.ofPtrs [10, 11, 12] 0 false false with m_currentIndex := 2 } :=
  ⟨(C8_previous (Queue.ofPtrs [10, 11, 12] 1 true false)).1 rfl,
    (C8_previous (Queue.ofPtrs [10, 11, 12] 0 false false)).2 rfl⟩

/-- C9.  With shuffle off and `currentIndex = c` (in particular for every valid position
`c` of a non-empty queue): if `c` is not the last position, `nextOnEos` sets `currentIndex` to `c + 1` and returns `true`; if `c` is the last
position and repeat is on, it sets `currentIndex` to `0` and returns `true`; if `c` is the
last position and repeat is off, it returns `false` and leaves the state unchanged. -/
theorem C9_nextOnEos_without_shuffle (q : Queue) (r : Nat) (hs : q.m_shuffle = false) :
    (q.m_currentIndex ≠ (q.m_tracks.length : Int) - 1 →
      q.nextOnEos r = some (true, { q with m_currentIndex := q.m_currentIndex + 1 })) ∧
    (q.m_currentIndex = (q.m_tracks.length : Int) - 1 → q.m_repeat = true →
      q.nextOnEos r = some (true, { q with m_currentIndex := 0 })) ∧
    (q.m_currentIndex = (q.m_tracks.length : Int) - 1 → q.m_repeat = false →
      q.nextOnEos r = some (false, q)) := by
  refine ⟨?_, ?_, ?_⟩
  · intro h
    unfold Queue.nextOnEos
    simp only [hs, Bool.false_eq_true, if_false, Queue.setCurrentIndex]
    rw [if_neg h]
  · intro h hr
    unfold Queue.nextOnEos
    simp only [hs, Bool.false_eq_true, if_false, Queue.setCurrentIndex]
    rw [if_pos h, if_pos hr]
  · intro h hr
    unfold Queue.nextOnEos
    simp only [hs, Bool.false_eq_true, if_false, Queue.setCurrentIndex]
    rw [if_pos h, hr]
    rfl

/-- C9, witness: three tracks; from position `0` to `1`; from the last position with
repeat on to `0`; from the last position with repeat off the call returns `false`. -/
theorem C9_nextOnEos_without_shuffle_witness :
    (Queue.ofPtrs [10, 11, 12] 0 false false).nextOnEos 3
      = some (true, { Queue.ofPtrs [10, 11, 12] 0 false false with m_currentIndex := 0 + 1 }) ∧
    (Queue.ofPtrs [10, 11, 12] 2 false true).nextOnEos 3
      = some (true, { Queue.ofPtrs [10, 11, 12] 2 false true with m_currentIndex := 0 }) ∧
    (Queue.ofPtrs [10, 11, 12] 2 false false).nextOnEos 3
      = some (false, Queue.ofPtrs [10, 11, 12] 2 false false) :=
  ⟨(C9_nextOnEos_without_shuffle (Queue.ofPtrs [10, 11, 12] 0 false false) 3 rfl).1
      (by decide),
    (C9_nextOnEos_without_shuffle (Queue.ofPtrs [10, 11, 12] 2 false true) 3 rfl).2.1
      (by decide) rfl,
    (C9_nextOnEos_without_shuffle (Queue.ofPtrs [10, 11, 12] 2 false false) 3 rfl).2.2
      (by decide) rfl⟩

/-- C10, the code at the failing input.  `clear()` empties the track list and the
not-played list but leaves `currentIndex` as it was: on a queue of one track with
`currentIndex = 0` it yields an empty queue whose `currentIndex` is `0`, not `-1`. -/
theorem C10_clear_leaves_currentIndex (q : Queue) :
    q.clear.m_tracks = [] ∧ q.clear.m_notPlayedTracks = [] ∧
    q.clear.m_currentIndex = q.m_currentIndex ∧
    (Queue.ofPtrs [10] 0 false false).clear.m_tracks = [] ∧
    (Queue.ofPtrs [10] 0 false false).clear.m_currentIndex = 0 :=
  ⟨rfl, rfl, rfl, rfl, rfl⟩

/-! ## Well-formedness of the states the editing requests reach -/

theorem init_wellFormed : Queue.init.WellFormed := by
  refine ⟨List.nodup_nil, ?_, List.Sublist.refl _⟩
  intro p hp
  cases hp

theorem addOne_wellFormed (mediaArt : String → String → String → String) (q : Queue)
    (m : TrackMap) (h : q.WellFormed) : (q.addOne mediaArt m).WellFormed := by
  obtain ⟨hnd, hlt, hsub⟩ := h
  refine ⟨?_, ?_, ?_⟩
  · show (q.m_tracks ++ [q.m_alloc]).Nodup
    rw [List.nodup_append]
    refine ⟨hnd, List.nodup_singleton _, ?_⟩
    intro a ha hb
    rw [List.mem_singleton] at hb
    subst hb
    exact Nat.lt_irrefl _ (hlt _ ha)
  · intro p hp
    have hp2 : p ∈ q.m_tracks ++ [q.m_alloc] := hp
    show p < q.m_alloc + 1
    rcases List.mem_append.mp hp2 with h1 | h1
    · exact Nat.lt_succ_of_lt (hlt p h1)
    · rw [List.mem_singleton] at h1
      rw [h1]
      exact Nat.lt_succ_self _
  · show (q.m_notPlayedTracks ++ [q.m_alloc]).Sublist (q.m_tracks ++ [q.m_alloc])
    exact List.Sublist.append hsub (List.Sublist.refl _)

theorem add_wellFormed (mediaArt : String → String → String → String) (l : List TrackMap)
    (q : Queue) (h : q.WellFormed) : (q.add mediaArt l).WellFormed := by
  have hfold : ∀ (l : List TrackMap) (q : Queue), q.WellFormed →
      (l.foldl (Queue.addOne mediaArt) q).WellFormed := by
    intro l
    induction l with
    | nil => intro q hq; exact hq
    | cons m ms ih => intro q hq; exact ih _ (addOne_wellFormed mediaArt q m hq)
  unfold Queue.add
  split
  · exact hfold l q h
  · exact h

theorem remove_wellFormed {q q1 : Queue} {index : Int} (h : q.WellFormed)
    (hr : q.remove index = some q1) : q1.WellFormed := by
  obtain ⟨hnd, hlt, hsub⟩ := h
  unfold Queue.remove at hr
  split at hr
  · cases hr
  · rename_i track hat
    obtain ⟨_, hi1, hget⟩ := listAt_eq_some hat
    have hin : index.toNat < q.m_tracks.length := by omega
    have htrack : track = q.m_tracks[index.toNat] := by
      rw [List.getElem?_eq_getElem hin] at hget
      exact (Option.some.inj hget).symm
    have hwf : Queue.WellFormed
        { q with
          m_tracks := q.m_tracks.eraseIdx index.toNat
          m_notPlayedTracks := q.m_notPlayedTracks.erase track
          m_heap := q.m_heap.filter (fun c => c.1 != track) } := by
      refine ⟨hnd.sublist (List.eraseIdx_sublist _ _),
        fun p hp => hlt p (List.mem_of_mem_eraseIdx hp), ?_⟩
      show (q.m_notPlayedTracks.erase track).Sublist (q.m_tracks.eraseIdx index.toNat)
      rw [← List.Nodup.erase_getElem hnd index.toNat hin, ← htrack]
      exact List.Sublist.erase track hsub
    simp only [Queue.setCurrentIndex] at hr
    split at hr
    · cases hr; exact hwf
    · split at hr
      · split at hr <;> (cases hr; exact hwf)
      · cases hr; exact hwf

/-- Every state reached from a freshly constructed queue by `add` and `remove` requests is
well formed; in particular its track pointers are pairwise distinct. -/
theorem runEdits_wellFormed (mediaArt : String → String → String → String)
    (ops : List EditOp) (q q1 : Queue) (hq : q.WellFormed)
    (h : Queue.runEdits mediaArt q ops = some q1) : q1.WellFormed := by
  induction ops generalizing q with
  | nil =>
    simp only [Queue.runEdits, Option.some.injEq] at h
    rw [← h]; exact hq
  | cons op ops ih =>
    unfold Queue.runEdits at h
    split at h
    · cases h
    · rename_i q2 hop
      refine ih q2 ?_ h
      cases op with
      | add l =>
        simp only [Queue.applyEdit, Option.some.injEq] at hop
        rw [← hop]; exact add_wellFormed mediaArt l q hq
      | remove i => exact remove_wellFormed hq hop

/-! ## What `next` and `nextOnEos` leave of the lists -/

theorem pickNotPlayed_eq_some {q q1 : Queue} {r : Nat} (h : q.pickNotPlayed r = some q1) :
    ∃ i, q1 = q.setCurrentIndex i := by
  unfold Queue.pickNotPlayed at h
  split at h
  · cases h
  · split at h
    · cases h
    · exact ⟨_, (Option.some.inj h).symm⟩

/-- A defined call of `next` keeps the tracks, the allocator and the flags; the not-played
list is kept, or is the old not-played list or the track list with one track erased. -/
theorem next_frame {q q1 : Queue} {r : Nat} (h : q.next r = some q1) :
    q1.m_tracks = q.m_tracks ∧ q1.m_alloc = q.m_alloc ∧ q1.m_shuffle = q.m_shuffle ∧
      q1.m_repeat = q.m_repeat ∧
      (q.m_shuffle = false → q1.m_notPlayedTracks = q.m_notPlayedTracks) ∧
      (q1.m_notPlayedTracks = q.m_notPlayedTracks ∨
        ∃ t, q1.m_notPlayedTracks = q.m_notPlayedTracks.erase t ∨
          q1.m_notPlayedTracks = q.m_tracks.erase t) := by
  unfold Queue.next at h
  split at h
  · rename_i hs
    have hsf : q.m_shuffle = false → q1.m_notPlayedTracks = q.m_notPlayedTracks := by
      intro hf
      rw [hf] at hs
      cases hs
    by_cases hl : q.m_notPlayedTracks.length = 1
    · simp only [hl, if_true, Queue.resetNotPlayedTracks] at h
      split at h
      · cases h
      · rename_i track _
        obtain ⟨i, hi⟩ := pickNotPlayed_eq_some h
        subst hi
        exact ⟨rfl, rfl, rfl, rfl, hsf, Or.inr ⟨track, Or.inr rfl⟩⟩
    · simp only [hl, if_false] at h
      split at h
      · cases h
      · rename_i track _
        obtain ⟨i, hi⟩ := pickNotPlayed_eq_some h
        subst hi
        exact ⟨rfl, rfl, rfl, rfl, hsf, Or.inr ⟨track, Or.inl rfl⟩⟩
  · rename_i hs
    have hf : q.m_shuffle = false := by simpa using hs
    split at h <;>
      (cases h; exact ⟨rfl, rfl, rfl, rfl, fun _ => rfl, Or.inl rfl⟩)

/-- A defined call of `nextOnEos` keeps the tracks, the allocator and the flags; the
not-played list is kept, or is the old not-played list or the track list with one track
erased. -/
theorem nextOnEos_frame {q q1 : Queue} {r : Nat} {b : Bool}
    (h : q.nextOnEos r = some (b, q1)) :
    q1.m_tracks = q.m_tracks ∧ q1.m_alloc = q.m_alloc ∧ q1.m_shuffle = q.m_shuffle ∧
      q1.m_repeat = q.m_repeat ∧
      (q.m_shuffle = false → q1.m_notPlayedTracks = q.m_notPlayedTracks) ∧
      (q1.m_notPlayedTracks = q.m_notPlayedTracks ∨
        ∃ t, q1.m_notPlayedTracks = q.m_notPlayedTracks.erase t ∨
          q1.m_notPlayedTracks = q.m_tracks.erase t) := by
  unfold Queue.nextOnEos at h
  split at h
  · rename_i hs
    have hsf : q.m_shuffle = false → q1.m_notPlayedTracks = q.m_notPlayedTracks := by
      intro hf
      rw [hf] at hs
      cases hs
    split at h
    · cases h
    · rename_i track _
      simp only at h
      split at h
      · split at h
        · rw [Option.map_eq_some'] at h
          obtain ⟨q2, hq2, heq⟩ := h
          obtain ⟨i, hi⟩ := pickNotPlayed_eq_some hq2
          cases heq
          subst hi
          exact ⟨rfl, rfl, rfl, rfl, hsf, Or.inr ⟨track, Or.inr rfl⟩⟩
        · cases h
          exact ⟨rfl, rfl, rfl, rfl, hsf, Or.inr ⟨track, Or.inl rfl⟩⟩
      · rw [Option.map_eq_some'] at h
        obtain ⟨q2, hq2, heq⟩ := h
        obtain ⟨i, hi⟩ := pickNotPlayed_eq_some hq2
        cases heq
        subst hi
        exact ⟨rfl, rfl, rfl, rfl, hsf, Or.inr ⟨track, Or.inl rfl⟩⟩
  · split at h
    · split at h <;>
        (cases h; exact ⟨rfl, rfl, rfl, rfl, fun _ => rfl, Or.inl rfl⟩)
    · cases h
      exact ⟨rfl, rfl, rfl, rfl, fun _ => rfl, Or.inl rfl⟩

/-! ## What `add` and `remove` do to the lists -/

theorem add_frame (mediaArt : String → String → String → String) (l : List TrackMap)
    (q : Queue) :
    (∃ xs, (q.add mediaArt l).m_tracks = q.m_tracks ++ xs ∧
      (q.add mediaArt l).m_notPlayedTracks = q.m_notPlayedTracks ++ xs) ∧
    (q.add mediaArt l).m_shuffle = q.m_shuffle ∧ (q.add mediaArt l).m_repeat = q.m_repeat := by
  have hfold : ∀ (l : List TrackMap) (q : Queue),
      (∃ xs, (l.foldl (Queue.addOne mediaArt) q).m_tracks = q.m_tracks ++ xs ∧
        (l.foldl (Queue.addOne mediaArt) q).m_notPlayedTracks = q.m_notPlayedTracks ++ xs) ∧
      (l.foldl (Queue.addOne mediaArt) q).m_shuffle = q.m_shuffle ∧
      (l.foldl (Queue.addOne mediaArt) q).m_repeat = q.m_repeat := by
    intro l
    induction l with
    | nil => intro q; exact ⟨⟨[], by simp, by simp⟩, rfl, rfl⟩
    | cons m ms ih =>
      intro q
      obtain ⟨⟨xs, h1, h2⟩, h3, h4⟩ := ih (q.addOne mediaArt m)
      refine ⟨⟨q.m_alloc :: xs, ?_, ?_⟩, ?_, ?_⟩
      · rw [List.foldl_cons, h1]
        simp [Queue.addOne]
      · rw [List.foldl_cons, h2]
        simp [Queue.addOne]
      · rw [List.foldl_cons, h3]; rfl
      · rw [List.foldl_cons, h4]; rfl
  unfold Queue.add
  split
  · exact hfold l q
  · exact ⟨⟨[], by simp, by simp⟩, rfl, rfl⟩

theorem remove_frame {q q1 : Queue} {index : Int} (h : q.remove index = some q1) :
    ∃ (n : Nat) (hn : n < q.m_tracks.length), index = (n : Int) ∧
      q1.m_tracks = q.m_tracks.eraseIdx n ∧
      q1.m_notPlayedTracks = q.m_notPlayedTracks.erase q.m_tracks[n] ∧
      q1.m_shuffle = q.m_shuffle ∧ q1.m_repeat = q.m_repeat ∧ q1.m_alloc = q.m_alloc := by
  have hat : ∃ track, listAt q.m_tracks index = some track := by
    unfold Queue.remove at h
    split at h
    · cases h
    · rename_i track hat
      exact ⟨track, hat⟩
  obtain ⟨track, hat⟩ := hat
  obtain ⟨h0, h1, _⟩ := listAt_eq_some hat
  lift index to ℕ using h0
  have hn : index < q.m_tracks.length := by exact_mod_cast h1
  refine ⟨index, hn, rfl, ?_⟩
  rw [remove_of_lt q index hn] at h
  simp only [Queue.setCurrentIndex] at h
  split at h
  · cases h; exact ⟨rfl, rfl, rfl, rfl, rfl⟩
  · split at h
    · split at h <;> (cases h; exact ⟨rfl, rfl, rfl, rfl, rfl⟩)
    · cases h; exact ⟨rfl, rfl, rfl, rfl, rfl⟩

/-! ## Invariants of the reachable states -/

/-- Well-formedness is kept by every defined call. -/
theorem applyOp_wellFormed (mediaArt : String → String → String → String) {q q1 : Queue}
    (op : QueueOp) (hq : q.WellFormed) (h : q.applyOp mediaArt op = some q1) :
    q1.WellFormed := by
  cases op with
  | add l =>
    cases h
    exact add_wellFormed mediaArt l q hq
  | remove i => exact remove_wellFormed hq h
  | clear =>
    cases h
    refine ⟨List.nodup_nil, ?_, List.Sublist.refl _⟩
    intro p hp
    cases hp
  | setCurrentIndex i => cases h; exact hq
  | setShuffle b =>
    cases h
    unfold Queue.setShuffle
    dsimp only
    split
    · exact ⟨hq.1, hq.2.1, List.Sublist.refl _⟩
    · exact hq
  | setRepeat b =>
    cases h
    unfold Queue.setRepeat
    dsimp only
    split
    · exact ⟨hq.1, hq.2.1, List.Sublist.refl _⟩
    · exact hq
  | next r =>
    obtain ⟨ht, ha, _, _, _, hnp⟩ := next_frame h
    refine ⟨ht ▸ hq.1, ?_, ?_⟩
    · rw [ht, ha]; exact hq.2.1
    · rw [ht]
      rcases hnp with hnp | ⟨t, hnp | hnp⟩
      · rw [hnp]; exact hq.2.2
      · rw [hnp]; exact (List.erase_sublist _ _).trans hq.2.2
      · rw [hnp]; exact List.erase_sublist _ _
  | nextOnEos r =>
    simp only [Queue.applyOp, Option.map_eq_some'] at h
    obtain ⟨⟨b, q2⟩, hq2, heq⟩ := h
    simp only at heq
    subst heq
    obtain ⟨ht, ha, _, _, _, hnp⟩ := nextOnEos_frame hq2
    refine ⟨ht ▸ hq.1, ?_, ?_⟩
    · rw [ht, ha]; exact hq.2.1
    · rw [ht]
      rcases hnp with hnp | ⟨t, hnp | hnp⟩
      · rw [hnp]; exact hq.2.2
      · rw [hnp]; exact (List.erase_sublist _ _).trans hq.2.2
      · rw [hnp]; exact List.erase_sublist _ _
  | previous =>
    cases h
    unfold Queue.previous
    split
    · exact hq
    · split <;> exact hq

/-- While shuffle is off the not-played list is the track list: every defined call keeps
that. -/
theorem applyOp_shuffleOff (mediaArt : String → String → String → String) {q q1 : Queue}
    (op : QueueOp) (hq : q.WellFormed)
    (hoff : q.m_shuffle = false → q.m_notPlayedTracks = q.m_tracks)
    (h : q.applyOp mediaArt op = some q1) :
    q1.m_shuffle = false → q1.m_notPlayedTracks = q1.m_tracks := by
  cases op with
  | add l =>
    cases h
    obtain ⟨⟨xs, h1, h2⟩, h3, _⟩ := add_frame mediaArt l q
    intro hs
    rw [h1, h2, hoff (h3 ▸ hs)]
  | remove i =>
    obtain ⟨n, hn, _, h1, h2, h3, _, _⟩ := remove_frame h
    intro hs
    rw [h1, h2, hoff (h3 ▸ hs)]
    exact List.Nodup.erase_getElem hq.1 n hn
  | clear => cases h; intro _; rfl
  | setCurrentIndex i => cases h; exact hoff
  | setShuffle b =>
    cases h
    cases b with
    | false => intro _; rfl
    | true => intro hs; cases hs
  | setRepeat b =>
    cases h
    unfold Queue.setRepeat
    dsimp only
    split
    · intro _; rfl
    · exact hoff
  | next r =>
    obtain ⟨ht, _, hs, _, hnp, _⟩ := next_frame h
    intro hs1
    rw [hnp (hs ▸ hs1), ht]
    exact hoff (hs ▸ hs1)
  | nextOnEos r =>
    simp only [Queue.applyOp, Option.map_eq_some'] at h
    obtain ⟨⟨b, q2⟩, hq2, heq⟩ := h
    simp only at heq
    subst heq
    obtain ⟨ht, _, hs, _, hnp, _⟩ := nextOnEos_frame hq2
    intro hs1
    rw [hnp (hs ▸ hs1), ht]
    exact hoff (hs ▸ hs1)
  | previous =>
    cases h
    unfold Queue.previous
    split
    · exact hoff
    · split <;> exact hoff

theorem runOps_invariant (mediaArt : String → String → String → String)
    (ops : List QueueOp) (q q1 : Queue) (hq : q.WellFormed)
    (hoff : q.m_shuffle = false → q.m_notPlayedTracks = q.m_tracks)
    (h : Queue.runOps mediaArt q ops = some q1) :
    q1.WellFormed ∧ (q1.m_shuffle = false → q1.m_notPlayedTracks = q1.m_tracks) := by
  induction ops generalizing q with
  | nil =>
    simp only [Queue.runOps, Option.some.injEq] at h
    rw [← h]; exact ⟨hq, hoff⟩
  | cons op ops ih =>
    unfold Queue.runOps at h
    split at h
    · cases h
    · rename_i q2 hop
      exact ih q2 (applyOp_wellFormed mediaArt op hq hop)
        (applyOp_shuffleOff mediaArt op hq hoff hop) h

/-! ## C11 -/

/-- C11.  In every state reached from a freshly constructed queue by defined calls of `add`,
`remove`, `clear`, `setCurrentIndex`, `setShuffle`, `setRepeat`, `next`, `nextOnEos` and
`previous` in which shuffle is off, `setShuffle(true)` yields a state whose not-played list
is the whole current track list: the list is reset when shuffle is switched off and `add`
and `remove` then keep it equal to the track list. -/
theorem C11_setShuffle_true_starts_full (mediaArt : String → String → String → String)
    (ops : List QueueOp) (q : Queue)
    (h : Queue.runOps mediaArt Queue.init ops = some q) (hs : q.m_shuffle = false) :
    (q.setShuffle true).m_notPlayedTracks = (q.setShuffle true).m_tracks ∧
      (q.setShuffle true).m_tracks = q.m_tracks ∧ (q.setShuffle true).m_shuffle = true := by
  have hinv := runOps_invariant mediaArt ops Queue.init q init_wellFormed (fun _ => rfl) h
  exact ⟨hinv.2 hs, rfl, rfl⟩

/-- C11, witness: two tracks, a shuffle cycle that plays one of them, shuffle off, one more
track added; switching shuffle on again starts from all three tracks. -/
theorem C11_setShuffle_true_starts_full_witness :
    ∃ q, Queue.runOps noArt Queue.init
        [.add [mapOf "A", mapOf "B"], .setCurrentIndex 0, .setShuffle true, .nextOnEos 0,
          .setShuffle false, .add [mapOf "C"]] = some q ∧
      q.m_shuffle = false ∧ q.m_tracks = [0, 1, 2] ∧
      ((q.setShuffle true).m_notPlayedTracks = (q.setShuffle true).m_tracks ∧
        (q.setShuffle true).m_tracks = q.m_tracks ∧ (q.setShuffle true).m_shuffle = true) :=
  ⟨_, rfl, rfl, rfl,
    C11_setShuffle_true_starts_full noArt
      [.add [mapOf "A", mapOf "B"], .setCurrentIndex 0, .setShuffle true, .nextOnEos 0,
        .setShuffle false, .add [mapOf "C"]] _ rfl rfl⟩

/-! ## C12 -/

theorem mem_notPlayedIndices (q : Queue) (j : Nat) :
    j ∈ q.notPlayedIndices ↔ ∃ t, q.m_tracks[j]? = some t ∧ t ∈ q.m_notPlayedTracks := by
  unfold Queue.notPlayedIndices
  rw [List.mem_filter, List.mem_range]
  constructor
  · rintro ⟨hj, hp⟩
    rw [List.getElem?_eq_getElem hj] at hp
    refine ⟨q.m_tracks[j], List.getElem?_eq_getElem hj, ?_⟩
    simpa using hp
  · rintro ⟨t, ht, hmem⟩
    have hj : j < q.m_tracks.length := (List.getElem?_eq_some.mp ht).1
    refine ⟨hj, ?_⟩
    rw [ht]
    simpa using hmem

/-- The not-played list stays a sub-collection of the track list (counting repetitions)
under every defined call. -/
theorem applyOp_subperm (mediaArt : String → String → String → String) {q q1 : Queue}
    (op : QueueOp) (hq : q.m_notPlayedTracks.Subperm q.m_tracks)
    (h : q.applyOp mediaArt op = some q1) : q1.m_notPlayedTracks.Subperm q1.m_tracks := by
  cases op with
  | add l =>
    cases h
    obtain ⟨⟨xs, h1, h2⟩, _, _⟩ := add_frame mediaArt l q
    rw [h1, h2]
    exact (List.subperm_append_right xs).mpr hq
  | remove i =>
    obtain ⟨n, hn, _, h1, h2, _, _, _⟩ := remove_frame h
    rw [h1, h2]
    exact (List.Perm.subperm_left (List.erase_getElem hn)).mp (List.Subperm.erase _ hq)
  | clear => cases h; exact List.Subperm.refl _
  | setCurrentIndex i => cases h; exact hq
  | setShuffle b =>
    cases h
    unfold Queue.setShuffle
    dsimp only
    split
    · exact List.Subperm.refl _
    · exact hq
  | setRepeat b =>
    cases h
    unfold Queue.setRepeat
    dsimp only
    split
    · exact List.Subperm.refl _
    · exact hq
  | next r =>
    obtain ⟨ht, _, _, _, _, hnp⟩ := next_frame h
    rw [ht]
    rcases hnp with hnp | ⟨t, hnp | hnp⟩
    · rw [hnp]; exact hq
    · rw [hnp]; exact (List.erase_subperm _ _).trans hq
    · rw [hnp]; exact List.erase_subperm _ _
  | nextOnEos r =>
    simp only [Queue.applyOp, Option.map_eq_some'] at h
    obtain ⟨⟨b, q2⟩, hq2, heq⟩ := h
    simp only at heq
    subst heq
    obtain ⟨ht, _, _, _, _, hnp⟩ := nextOnEos_frame hq2
    rw [ht]
    rcases hnp with hnp | ⟨t, hnp | hnp⟩
    · rw [hnp]; exact hq
    · rw [hnp]; exact (List.erase_subperm _ _).trans hq
    · rw [hnp]; exact List.erase_subperm _ _
  | previous =>
    cases h
    unfold Queue.previous
    split
    · exact hq
    · split <;> exact hq

theorem runOps_subperm (mediaArt : String → String → String → String)
    (ops : List QueueOp) (q q1 : Queue) (hq : q.m_notPlayedTracks.Subperm q.m_tracks)
    (h : Queue.runOps mediaArt q ops = some q1) :
    q1.m_notPlayedTracks.Subperm q1.m_tracks := by
  induction ops generalizing q with
  | nil =>
    simp only [Queue.runOps, Option.some.injEq] at h
    rw [← h]; exact hq
  | cons op ops ih =>
    unfold Queue.runOps at h
    split at h
    · cases h
    · rename_i q2 hop
      exact ih q2 (applyOp_subperm mediaArt op hq hop) h

/-- C12.  In a state whose track pointers are distinct and whose not-played list is a
duplicate-free sub-collection of the track list, `remove(i)` with a valid position `i` is
defined, and the not-played positions of the new state are exactly the old not-played
positions other than `i`, each position above `i` lowered by one.  Consequently, after any
defined calls (`add`, `remove`, `clear`, `next`, `nextOnEos` and the other members) every
not-played track is still a queued track, so every not-played position is a position of
the track list. -/
theorem C12_remove_rewrites_notPlayed (mediaArt : String → String → String → String)
    (q : Queue) (i : Nat) (hnd : q.m_tracks.Nodup) (hnp : q.m_notPlayedTracks.Nodup)
    (hsub : ∀ t ∈ q.m_notPlayedTracks, t ∈ q.m_tracks) (hi : i < q.m_tracks.length) :
    (∃ q1, q.remove (i : Int) = some q1 ∧
      ∀ j, j ∈ q1.notPlayedIndices ↔
        ∃ k ∈ q.notPlayedIndices, k ≠ i ∧ j = if i < k then k - 1 else k) ∧
    (∀ (ops : List QueueOp) (q2 : Queue), q.runOps mediaArt ops = some q2 →
      (∀ t ∈ q2.m_notPlayedTracks, t ∈ q2.m_tracks) ∧
      ∀ j ∈ q2.notPlayedIndices, j < q2.m_tracks.length) := by
  constructor
  · have hsome : ∃ q1, q.remove (i : Int) = some q1 := by
      rw [remove_of_lt q i hi]
      dsimp only [Queue.setCurrentIndex]
      split
      · exact ⟨_, rfl⟩
      · split
        · split <;> exact ⟨_, rfl⟩
        · exact ⟨_, rfl⟩
    obtain ⟨q1, hq1⟩ := hsome
    refine ⟨q1, hq1, ?_⟩
    obtain ⟨n, hn, hin, h1, h2, _, _, _⟩ := remove_frame hq1
    have hni : n = i := by exact_mod_cast hin.symm
    subst hni
    intro j
    rw [mem_notPlayedIndices]
    constructor
    · rintro ⟨t, ht, hmem⟩
      rw [h1, List.getElem?_eraseIdx] at ht
      rw [h2] at hmem
      have hmem2 : t ∈ q.m_notPlayedTracks := List.mem_of_mem_erase hmem
      by_cases hj : j < n
      · rw [if_pos hj] at ht
        refine ⟨j, (mem_notPlayedIndices q j).mpr ⟨t, ht, hmem2⟩, by omega, ?_⟩
        rw [if_neg (by omega)]
      · rw [if_neg hj] at ht
        refine ⟨j + 1, (mem_notPlayedIndices q (j + 1)).mpr ⟨t, ht, hmem2⟩, by omega, ?_⟩
        rw [if_pos (by omega)]
        omega
    · rintro ⟨k, hk, hkn, hjk⟩
      obtain ⟨t, ht, hmem⟩ := (mem_notPlayedIndices q k).mp hk
      have hkl : k < q.m_tracks.length := (List.getElem?_eq_some.mp ht).1
      have htk : t = q.m_tracks[k] := by
        rw [List.getElem?_eq_getElem hkl] at ht
        exact (Option.some.inj ht).symm
      have hne : t ≠ q.m_tracks[n] := by
        rw [htk]
        intro heq
        exact hkn ((List.Nodup.getElem_inj_iff hnd).mp heq)
      refine ⟨t, ?_, ?_⟩
      · rw [h1, List.getElem?_eraseIdx]
        by_cases hlt : n < k
        · rw [if_pos hlt] at hjk
          rw [if_neg (by omega)]
          have : j + 1 = k := by omega
          rw [this]; exact ht
        · rw [if_neg hlt] at hjk
          rw [if_pos (by omega), hjk]; exact ht
      · rw [h2]
        exact (List.mem_erase_of_ne hne).mpr hmem
  · intro ops q2 hrun
    have hsp := runOps_subperm mediaArt ops q q2 (List.subperm_of_subset hnp hsub) hrun
    refine ⟨fun t ht => hsp.subset ht, ?_⟩
    intro j hj
    obtain ⟨t, ht, _⟩ := (mem_notPlayedIndices q2 j).mp hj
    exact (List.getElem?_eq_some.mp ht).1

/-- C12, witness: tracks `[10, 11, 12, 13]` with `11` and `13` not played (positions 1 and
3); after `remove(1)` the not-played positions are `[2]`. -/
theorem C12_remove_rewrites_notPlayed_witness :
    ((∃ q1, Queue.remove ⟨[10, 11, 12, 13], [11, 13], 0, true, false, [], 14⟩ ((1 : Nat) : Int)
          = some q1 ∧
        ∀ j, j ∈ q1.notPlayedIndices ↔
          ∃ k ∈ Queue.notPlayedIndices ⟨[10, 11, 12, 13], [11, 13], 0, true, false, [], 14⟩,
            k ≠ 1 ∧ j = if 1 < k then k - 1 else k) ∧
      (∀ (ops : List QueueOp) (q2 : Queue),
        Queue.runOps noArt ⟨[10, 11, 12, 13], [11, 13], 0, true, false, [], 14⟩ ops = some q2 →
        (∀ t ∈ q2.m_notPlayedTracks, t ∈ q2.m_tracks) ∧
        ∀ j ∈ q2.notPlayedIndices, j < q2.m_tracks.length)) ∧
    (Queue.remove ⟨[10, 11, 12, 13], [11, 13], 0, true, false, [], 14⟩ 1).map
      (fun q1 => q1.notPlayedIndices) = some [2] :=
  ⟨C12_remove_rewrites_notPlayed noArt ⟨[10, 11, 12, 13], [11, 13], 0, true, false, [], 14⟩ 1
    (by decide) (by decide) (by decide) (by decide), by decide⟩

/-! ## C13 -/

theorem listAt_eq_none_of_out_of_range {l : List TrackPtr} {i : Int}
    (h : ¬ (0 ≤ i ∧ i < (l.length : Int))) : listAt l i = none := by
  unfold listAt
  split
  · rename_i h0
    apply List.getElem?_eq_none
    have : ¬ i < (l.length : Int) := fun h1 => h ⟨h0, h1⟩
    omega
  · rfl

theorem currentField_of_out_of_range {α : Type} (q : Queue) (field : QueueTrack → α) (dflt : α)
    (h : ¬ (0 ≤ q.m_currentIndex ∧ q.m_currentIndex < (q.m_tracks.length : Int))) :
    q.currentField field dflt = some dflt := by
  unfold Queue.currentField
  rw [if_neg h]

/-- C13, amended.  For an index outside `[0, len(tracks))`: `remove(index)` is undefined
(the precondition of `QList::takeAt` fails and no state results), while
`setCurrentIndex(index)` makes no range check and stores the index exactly as given,
changing nothing else; the stored value is neither rejected nor clamped, and the getters
`currentTitle() .. currentMediaArt()` then return their empty values. -/
theorem C13_out_of_range_index (q : Queue) (index : Int)
    (h : ¬ (0 ≤ index ∧ index < (q.m_tracks.length : Int))) :
    q.remove index = none ∧
    q.setCurrentIndex index = { q with m_currentIndex := index } ∧
    (q.setCurrentIndex index).currentTitle = some "" ∧
    (q.setCurrentIndex index).currentUrl = some "" ∧
    (q.setCurrentIndex index).currentDuration = some 0 ∧
    (q.setCurrentIndex index).currentArtist = some "" ∧
    (q.setCurrentIndex index).currentAlbum = some "" ∧
    (q.setCurrentIndex index).currentMediaArt = some "" := by
  have hg : ¬ (0 ≤ (q.setCurrentIndex index).m_currentIndex ∧
      (q.setCurrentIndex index).m_currentIndex <
        ((q.setCurrentIndex index).m_tracks.length : Int)) := h
  refine ⟨?_, rfl, currentField_of_out_of_range _ _ _ hg, currentField_of_out_of_range _ _ _ hg,
    currentField_of_out_of_range _ _ _ hg, currentField_of_out_of_range _ _ _ hg,
    currentField_of_out_of_range _ _ _ hg, currentField_of_out_of_range _ _ _ hg⟩
  unfold Queue.remove
  rw [listAt_eq_none_of_out_of_range h]

/-- C13, witness: two tracks and the index `2`. -/
theorem C13_out_of_range_index_witness :
    (Queue.ofPtrs [10, 11] 0 false false).remove 2 = none ∧
    (Queue.ofPtrs [10, 11] 0 false false).setCurrentIndex 2
      = { Queue.ofPtrs [10, 11] 0 false false with m_currentIndex := 2 } ∧
    ((Queue.ofPtrs [10, 11] 0 false false).setCurrentIndex 2).currentTitle = some "" ∧
    ((Queue.ofPtrs [10, 11] 0 false false).setCurrentIndex 2).currentUrl = some "" ∧
    ((Queue.ofPtrs [10, 11] 0 false false).setCurrentIndex 2).currentDuration = some 0 ∧
    ((Queue.ofPtrs [10, 11] 0 false false).setCurrentIndex 2).currentArtist = some "" ∧
    ((Queue.ofPtrs [10, 11] 0 false false).setCurrentIndex 2).currentAlbum = some "" ∧
    ((Queue.ofPtrs [10, 11] 0 false false).setCurrentIndex 2).currentMediaArt = some "" :=
  C13_out_of_range_index (Queue.ofPtrs [10, 11] 0 false false) 2 (by decide)

/-- C13 as stated fails: on a queue of two tracks `setCurrentIndex(2)` does not fail; it
changes the state and stores the out-of-range index `2`. -/
theorem C13_counterexample :
    (Queue.ofPtrs [10, 11] 0 false false).m_tracks.length = 2 ∧
    ((Queue.ofPtrs [10, 11] 0 false false).setCurrentIndex 2).m_currentIndex = 2 ∧
    (Queue.ofPtrs [10, 11] 0 false false).setCurrentIndex 2
      ≠ Queue.ofPtrs [10, 11] 0 false false := by
  refine ⟨rfl, rfl, ?_⟩
  intro h
  have h2 := congrArg Queue.m_currentIndex h
  revert h2
  decide

/-! ## C16 -/

/-- Under shuffle `next()` is undefined whenever the not-played list is empty: a list of
length `0` is not reset, and the draw is then taken modulo zero. -/
theorem next_shuffle_of_notPlayed_nil (q : Queue) (r : Nat) (hs : q.m_shuffle = true)
    (hnp : q.m_notPlayedTracks = []) : q.next r = none := by
  unfold Queue.next
  rw [if_pos hs]
  have hl : ¬ q.m_notPlayedTracks.length = 1 := by rw [hnp]; decide
  simp only [hl, if_false]
  split
  · rfl
  · apply pickNotPlayed_of_nil
    simp only [hnp, List.erase_nil]

/-- C16, the code at the failing input.  Two tracks are added, `currentIndex` is set to `0`,
shuffle is switched on (repeat off), and `nextOnEos` is called twice: the first call moves
to position `1`, the second returns `false` and leaves the not-played list empty.  The state
reached has shuffle on, two tracks and `currentIndex = 1`, and `next()` is undefined in it
for every random draw: the not-played list has length `0`, not `1`, so it is not reset, and
`qrand()` is reduced modulo zero. -/
theorem C16_next_after_exhausted_cycle (r : Nat) :
    ∃ q, Queue.runOps noArt Queue.init
        [.add [mapOf "A", mapOf "B"], .setCurrentIndex 0, .setShuffle true, .nextOnEos 0,
          .nextOnEos 0] = some q ∧
      q.m_shuffle = true ∧ q.m_tracks = [0, 1] ∧ q.m_currentIndex = 1 ∧
      q.m_notPlayedTracks = [] ∧ q.next r = none := by
  exact ⟨_, rfl, rfl, rfl, rfl, rfl, next_shuffle_of_notPlayed_nil _ r rfl rfl⟩

/-- Under shuffle, with distinct tracks, at least two of them, a valid `currentIndex` and a
not-played list that is a non-empty sub-list of the track list, `next()` is defined and
moves `currentIndex` to a valid position other than the one it was on. -/
theorem next_shuffle_of_notPlayed_ne_nil (q : Queue) (r : Nat) (hwf : q.WellFormed)
    (hs : q.m_shuffle = true) (h2 : 2 ≤ q.m_tracks.length)
    (hc0 : 0 ≤ q.m_currentIndex) (hc1 : q.m_currentIndex < q.m_tracks.length)
    (hne : q.m_notPlayedTracks ≠ []) :
    ∃ q1, q.next r = some q1 ∧ 0 ≤ q1.m_currentIndex ∧
      q1.m_currentIndex < q.m_tracks.length ∧ q1.m_currentIndex ≠ q.m_currentIndex := by
  obtain ⟨hnd, _, hsub⟩ := hwf
  have hcn : q.m_currentIndex.toNat < q.m_tracks.length := by omega
  have hat : listAt q.m_tracks q.m_currentIndex = some q.m_tracks[q.m_currentIndex.toNat] := by
    have := listAt_of_lt hcn
    rwa [Int.toNat_of_nonneg hc0] at this
  have hfin : ∀ (np : List TrackPtr), np.Sublist q.m_tracks →
      np.erase q.m_tracks[q.m_currentIndex.toNat] ≠ [] →
      ∃ q1, Queue.pickNotPlayed
          { q with m_notPlayedTracks := np.erase q.m_tracks[q.m_currentIndex.toNat] } r
            = some q1 ∧
        0 ≤ q1.m_currentIndex ∧ q1.m_currentIndex < q.m_tracks.length ∧
        q1.m_currentIndex ≠ q.m_currentIndex := by
    intro np hnp hne2
    obtain ⟨x, hx, hp, hlt, hget⟩ := pickNotPlayed_of_ne_nil
      { q with m_notPlayedTracks := np.erase q.m_tracks[q.m_currentIndex.toNat] } r hne2
      (fun y hy => hnp.subset (List.mem_of_mem_erase hy))
    simp only [Queue.setCurrentIndex] at hp hlt hget
    refine ⟨_, hp, Int.ofNat_nonneg _, by simp only; exact_mod_cast hlt, ?_⟩
    intro heq
    simp only at heq
    rw [heq, hat] at hget
    have hx2 : x = q.m_tracks[q.m_currentIndex.toNat] := (Option.some.inj hget).symm
    rw [hx2] at hx
    exact List.Nodup.not_mem_erase (hnd.sublist hnp) hx
  have hlen_erase : ∀ (np : List TrackPtr) (t : TrackPtr), 2 ≤ np.length → np.erase t ≠ [] := by
    intro np t hl h
    have h1 := List.length_erase t np
    rw [h] at h1
    simp only [List.length_nil] at h1
    split at h1 <;> omega
  unfold Queue.next
  rw [if_pos hs]
  by_cases hl : q.m_notPlayedTracks.length = 1
  · simp only [hl, if_true, Queue.resetNotPlayedTracks, hat]
    exact hfin q.m_tracks (List.Sublist.refl _) (hlen_erase _ _ h2)
  · simp only [hl, if_false, hat]
    refine hfin q.m_notPlayedTracks hsub (hlen_erase _ _ ?_)
    have : q.m_notPlayedTracks.length ≠ 0 := fun h => hne (List.length_eq_zero.mp h)
    omega

/-! ## C17: batch removal from the playlist model -/

theorem keepOthers_nil (S : List Nat) (pos : Nat) : keepOthers S pos [] = [] := rfl

theorem keepOthers_cons (S : List Nat) (pos : Nat) (t : PlaylistTrack)
    (ts : List PlaylistTrack) :
    keepOthers S pos (t :: ts) =
      if pos ∈ S then keepOthers S (pos + 1) ts else t :: keepOthers S (pos + 1) ts := by
  unfold keepOthers
  rw [List.enumFrom_cons, List.filter_cons]
  by_cases h : pos ∈ S
  · simp [h]
  · simp [h]

/-- Only membership of the positions met matters. -/
theorem keepOthers_congr (S S1 : List Nat) (ts : List PlaylistTrack) :
    ∀ (pos pos1 : Nat), (∀ j, pos + j ∈ S ↔ pos1 + j ∈ S1) →
      keepOthers S pos ts = keepOthers S1 pos1 ts := by
  induction ts with
  | nil => intro _ _ _; rfl
  | cons t ts ih =>
    intro pos pos1 h
    have h0 : pos ∈ S ↔ pos1 ∈ S1 := by simpa using h 0
    have hstep : ∀ j, pos + 1 + j ∈ S ↔ pos1 + 1 + j ∈ S1 := by
      intro j
      have := h (j + 1)
      rw [show pos + (j + 1) = pos + 1 + j by omega,
        show pos1 + (j + 1) = pos1 + 1 + j by omega] at this
      exact this
    rw [keepOthers_cons, keepOthers_cons, ih (pos + 1) (pos1 + 1) hstep]
    by_cases hp : pos ∈ S
    · rw [if_pos hp, if_pos (h0.mp hp)]
    · rw [if_neg hp, if_neg (fun h1 => hp (h0.mpr h1))]

/-- Dropping the smallest listed position first: what is to be kept of `l` is what is to be
kept of `l` without that position, for the other positions lowered by one. -/
theorem keepOthers_eraseIdx (y : Nat) (ys : List Nat) (hlt : ∀ z ∈ ys, y < z) :
    ∀ (l : List PlaylistTrack) (pos : Nat), pos ≤ y → y - pos < l.length →
      keepOthers (y :: ys) pos l
        = keepOthers (ys.map (fun z => z - 1)) pos (l.eraseIdx (y - pos)) := by
  intro l
  induction l with
  | nil => intro pos _ h; simp at h
  | cons t ts ih =>
    intro pos hpos hlen
    rw [keepOthers_cons]
    by_cases hy : y = pos
    · subst hy
      rw [if_pos (List.mem_cons_self _ _), Nat.sub_self, List.eraseIdx_cons_zero]
      apply keepOthers_congr
      intro j
      constructor
      · intro h
        rcases List.mem_cons.mp h with h | h
        · omega
        · exact List.mem_map.mpr ⟨_, h, by omega⟩
      · intro h
        obtain ⟨z, hz, hzeq⟩ := List.mem_map.mp h
        have := hlt z hz
        have hz2 : z = y + 1 + j := by omega
        rw [← hz2]
        exact List.mem_cons_of_mem _ hz
    · have hlt2 : pos < y := by omega
      have hnot : pos ∉ y :: ys := by
        intro h
        rcases List.mem_cons.mp h with h | h
        · omega
        · have := hlt pos h
          omega
      have hnot2 : pos ∉ ys.map (fun z => z - 1) := by
        intro h
        obtain ⟨z, hz, hzeq⟩ := List.mem_map.mp h
        have := hlt z hz
        omega
      have hsub : y - pos = (y - (pos + 1)) + 1 := by omega
      rw [if_neg hnot, hsub, List.eraseIdx_cons_succ, keepOthers_cons, if_neg hnot2]
      congr 1
      apply ih (pos + 1) (by omega)
      simp only [List.length_cons] at hlen
      omega

/-- The general loop, for strictly ascending valid positions `ys` reached with loop counter
`i` (the list still holds `y + i` for each): it is defined, removes one row per position
and leaves the tracks at the other positions. -/
theorem removeLoop_eq (n : Nat) :
    ∀ (ys : List Nat) (m : PlaylistModel) (i : Nat), ys.length = n →
      ys.Pairwise (fun a b => a < b) → (∀ y ∈ ys, y < m.m_tracks.length) →
      m.removeLoop i (ys.map (fun y => ((y + i : Nat) : Int)))
          = some { m with m_tracks := keepOthers ys 0 m.m_tracks
                          m_rowCount := m.m_rowCount - (ys.length : Int) } ∧
        (keepOthers ys 0 m.m_tracks).length + ys.length = m.m_tracks.length := by
  induction n with
  | zero =>
    intro ys m i hn _ _
    have hys : ys = [] := List.length_eq_zero.mp hn
    subst hys
    refine ⟨?_, ?_⟩
    · simp only [List.map_nil, PlaylistModel.removeLoop, List.length_nil, Int.ofNat_zero,
        Int.sub_zero]
      congr 1
      have hk : keepOthers [] 0 m.m_tracks = m.m_tracks := by
        have : ∀ (l : List PlaylistTrack) (pos : Nat), keepOthers [] pos l = l := by
          intro l
          induction l with
          | nil => intro _; rfl
          | cons t ts ih => intro pos; rw [keepOthers_cons, if_neg (List.not_mem_nil _), ih]
        exact this _ _
      rw [hk]
    · have : ∀ (l : List PlaylistTrack) (pos : Nat), keepOthers [] pos l = l := by
        intro l
        induction l with
        | nil => intro _; rfl
        | cons t ts ih => intro pos; rw [keepOthers_cons, if_neg (List.not_mem_nil _), ih]
      rw [this]
      rfl
  | succ n ih =>
    intro ys m i hn hasc hin
    match ys, hn, hasc, hin with
    | y :: ys1, hn, hasc, hin =>
      have hy : y < m.m_tracks.length := hin y (List.mem_cons_self _ _)
      have hlt : ∀ z ∈ ys1, y < z := (List.pairwise_cons.mp hasc).1
      have hasc1 : ys1.Pairwise (fun a b => a < b) := (List.pairwise_cons.mp hasc).2
      have hn1 : (ys1.map (fun z => z - 1)).length = n := by
        simp only [List.length_map]
        simpa using hn
      have hasc2 : (ys1.map (fun z => z - 1)).Pairwise (fun a b => a < b) := by
        rw [List.pairwise_map]
        refine List.Pairwise.imp_of_mem ?_ hasc1
        intro a b ha hb hab
        have := hlt a ha
        omega
      have hin2 : ∀ z ∈ ys1.map (fun z => z - 1), z < (m.m_tracks.eraseIdx y).length := by
        intro z hz
        obtain ⟨w, hw, hweq⟩ := List.mem_map.mp hz
        have h1 := hlt w hw
        have h2 := hin w (List.mem_cons_of_mem _ hw)
        rw [List.length_eraseIdx_of_lt hy]
        omega
      obtain ⟨hrun, hlen⟩ := ih (ys1.map (fun z => z - 1))
        { m with m_tracks := m.m_tracks.eraseIdx y, m_rowCount := m.m_rowCount - 1 }
        (i + 1) hn1 hasc2 hin2
      have hmap : (ys1.map (fun z => z - 1)).map (fun y => ((y + (i + 1) : Nat) : Int))
          = ys1.map (fun y => ((y + i : Nat) : Int)) := by
        rw [List.map_map]
        apply List.map_congr_left
        intro a ha
        have := hlt a ha
        simp only [Function.comp]
        congr 1
        omega
      have hkeep := keepOthers_eraseIdx y ys1 hlt m.m_tracks 0 (Nat.zero_le _) (by simpa using hy)
      simp only [Nat.sub_zero] at hkeep
      refine ⟨?_, ?_⟩
      · rw [List.map_cons, PlaylistModel.removeLoop]
        have hidx : ((y + i : Nat) : Int) - (i : Int) = (y : Int) := by omega
        simp only [hidx, Int.toNat_ofNat]
        rw [if_pos ⟨Int.ofNat_nonneg _, by exact_mod_cast hy⟩, ← hmap, hrun, hkeep]
        simp only [List.length_map, List.length_cons, Nat.cast_add, Nat.cast_one]
        congr 2
        omega
      · rw [hkeep]
        simp only [List.length_map, List.length_cons] at hlen ⊢
        rw [List.length_eraseIdx_of_lt hy] at hlen
        omega

/-- C17.  For a strictly ascending list of valid positions, `removeAtIndexes` is defined
and leaves exactly the tracks whose original positions are not listed, in their original
order.  The general loop, which removes the positions one at a time in ascending order,
each lowered by the number of removals already made, is defined on the same input and
leaves the same tracks, also when `removeAtIndexes` takes the remove-everything shortcut;
and if the row count was the number of tracks before, it is the number of tracks
afterwards, and the loop and `removeAtIndexes` end in the same state. -/
theorem C17_removeAtIndexes (m : PlaylistModel) (indexes : List Nat)
    (hasc : indexes.Pairwise (fun a b => a < b))
    (hin : ∀ x ∈ indexes, x < m.m_tracks.length) :
    ∃ m1 m2, m.removeAtIndexes (indexes.map (fun (x : Nat) => (x : Int))) = some m1 ∧
      m1.m_tracks = keepOthers indexes 0 m.m_tracks ∧
      m.removeLoop 0 (indexes.map (fun (x : Nat) => (x : Int))) = some m2 ∧
      m2.m_tracks = m1.m_tracks ∧
      (m.m_rowCount = (m.m_tracks.length : Int) →
        m1.m_rowCount = (m1.m_tracks.length : Int) ∧ m2 = m1) := by
  obtain ⟨hrun, hlen⟩ := removeLoop_eq indexes.length indexes m 0 rfl hasc hin
  simp only [Nat.add_zero] at hrun
  unfold PlaylistModel.removeAtIndexes
  simp only [List.length_map]
  by_cases hall : indexes.length = m.m_tracks.length
  · rw [if_pos hall]
    have hk : keepOthers indexes 0 m.m_tracks = [] := by
      apply List.length_eq_zero.mp
      omega
    refine ⟨_, _, rfl, hk.symm, hrun, hk, ?_⟩
    intro hrc
    refine ⟨rfl, ?_⟩
    simp only [hk, hrc, hall, sub_self]
  · rw [if_neg hall]
    refine ⟨_, _, hrun, rfl, hrun, rfl, ?_⟩
    intro hrc
    refine ⟨?_, rfl⟩
    simp only [hrc]
    omega

/-- C17, witness: tracks `a, b, c` and the positions `0, 2`; `b` is left. -/
theorem C17_removeAtIndexes_witness :
    (∃ m1 m2, (PlaylistModel.init.componentComplete ["a", "b", "c"]).removeAtIndexes
          ([0, 2].map (fun (x : Nat) => (x : Int))) = some m1 ∧
      m1.m_tracks
        = keepOthers [0, 2] 0 (PlaylistModel.init.componentComplete ["a", "b", "c"]).m_tracks ∧
      (PlaylistModel.init.componentComplete ["a", "b", "c"]).removeLoop 0
          ([0, 2].map (fun (x : Nat) => (x : Int))) = some m2 ∧
      m2.m_tracks = m1.m_tracks ∧
      ((PlaylistModel.init.componentComplete ["a", "b", "c"]).m_rowCount
          = ((PlaylistModel.init.componentComplete ["a", "b", "c"]).m_tracks.length : Int) →
        m1.m_rowCount = (m1.m_tracks.length : Int) ∧ m2 = m1)) ∧
    ((PlaylistModel.init.componentComplete ["a", "b", "c"]).removeAtIndexes [0, 2]).map
        (fun m1 => m1.m_tracks.map (fun t => t.url)) = some ["b"] :=
  ⟨C17_removeAtIndexes (PlaylistModel.init.componentComplete ["a", "b", "c"]) [0, 2]
    (by decide) (by decide), rfl⟩

/-! ## C14 and C15: completions of the metadata queries -/

theorem fill_url (track : PlaylistTrack) (row : QSparqlResultRow) :
    (track.fill row).url = track.url := by
  unfold PlaylistTrack.fill
  cases row.artist <;> cases row.album <;> rfl

/-- A result without rows writes to no record. -/
theorem onQueryFinished_nil (m : PlaylistModel) (sender : TrackQuery) :
    ∃ m1, m.onQueryFinished sender [] = some m1 ∧ m1.m_tracks = m.m_tracks ∧
      m1.m_loadedTracks = m.m_loadedTracks + 1 ∧
      (m.m_loadedTracks + 1 = (m.m_tracks.length : Int) → m1.m_loaded = true) := by
  unfold PlaylistModel.onQueryFinished
  dsimp only
  split
  · rename_i h
    exact ⟨_, rfl, rfl, rfl, fun _ => rfl⟩
  · rename_i h
    exact ⟨_, rfl, rfl, rfl, fun h1 => absurd h1 h⟩

/-- A completion whose `trackIndex` is a valid position is defined; it keeps every locator
and changes no record but the one at that position. -/
theorem onQueryFinished_of_valid (m : PlaylistModel) (sender : TrackQuery)
    (rows : List QSparqlResultRow) (n : Nat) (hidx : sender.trackIndex = (n : Int))
    (hn : n < m.m_tracks.length) :
    ∃ m2, m.onQueryFinished sender rows = some m2 ∧
      m2.m_tracks.map (fun t => t.url) = m.m_tracks.map (fun t => t.url) ∧
      ∀ j, j ≠ n → m2.m_tracks[j]? = m.m_tracks[j]? := by
  cases rows with
  | nil =>
    obtain ⟨m1, h1, h2, _, _⟩ := onQueryFinished_nil m sender
    exact ⟨m1, h1, by rw [h2], fun j _ => by rw [h2]⟩
  | cons row rest =>
    have hurl : (m.m_tracks.set n (m.m_tracks[n].fill row)).map (fun t => t.url)
        = m.m_tracks.map (fun t => t.url) := by
      apply List.ext_getElem?
      intro j
      rw [List.getElem?_map, List.getElem?_map, List.getElem?_set]
      by_cases hj : n = j
      · subst hj
        rw [if_pos rfl, if_pos hn, List.getElem?_eq_getElem hn]
        simp only [Option.map_some', fill_url]
      · rw [if_neg hj]
    have hother : ∀ j, j ≠ n →
        (m.m_tracks.set n (m.m_tracks[n].fill row))[j]? = m.m_tracks[j]? := by
      intro j hj
      exact List.getElem?_set_ne (fun h => hj h.symm)
    unfold PlaylistModel.onQueryFinished
    simp only [hidx, Int.ofNat_nonneg, if_true, Int.toNat_ofNat, List.getElem?_eq_getElem hn]
    split
    · exact ⟨_, rfl, hurl, hother⟩
    · exact ⟨_, rfl, hurl, hother⟩

/-- With a row that has neither artist nor album, the record gets the two placeholders,
both substitutions are recorded, and `get` returns null `rawArtist` and `rawAlbum`; if the
record was the last one pending, the model is loaded. -/
theorem onQueryFinished_row_without_artist_album (m : PlaylistModel) (sender : TrackQuery)
    (row : QSparqlResultRow) (rest : List QSparqlResultRow) (n : Nat)
    (hidx : sender.trackIndex = (n : Int)) (hn : n < m.m_tracks.length)
    (ha : row.artist = none) (hb : row.album = none) :
    ∃ m1, m.onQueryFinished sender (row :: rest) = some m1 ∧
      m1.get (n : Int) = some
        { title := row.title.getD "", url := m.m_tracks[n].url,
          duration := some (row.duration.getD 0),
          artist := "Unknown artist", rawArtist := none,
          album := "Unknown album", rawAlbum := none } ∧
      (m.m_loadedTracks + 1 = (m.m_tracks.length : Int) → m1.m_loaded = true) := by
  have hfill : m.m_tracks[n].fill row =
      { m.m_tracks[n] with
        title := row.title.getD "", duration := some (row.duration.getD 0),
        artist := "Unknown artist", unknownArtist := true,
        album := "Unknown album", unknownAlbum := true } := by
    unfold PlaylistTrack.fill
    rw [ha, hb]
  have hget : ∀ (m1 : PlaylistModel),
      m1.m_tracks = m.m_tracks.set n (m.m_tracks[n].fill row) →
      m1.get (n : Int) = some
        { title := row.title.getD "", url := m.m_tracks[n].url,
          duration := some (row.duration.getD 0),
          artist := "Unknown artist", rawArtist := none,
          album := "Unknown album", rawAlbum := none } := by
    intro m1 h1
    unfold PlaylistModel.get
    simp only [Int.ofNat_nonneg, if_true, Int.toNat_ofNat, h1, List.getElem?_set_self hn, hfill]
  unfold PlaylistModel.onQueryFinished
  simp only [hidx, Int.ofNat_nonneg, if_true, Int.toNat_ofNat, List.getElem?_eq_getElem hn]
  split
  · exact ⟨_, rfl, hget _ rfl, fun _ => rfl⟩
  · rename_i h
    refine ⟨_, rfl, hget _ rfl, fun h1 => ?_⟩
    exfalso
    apply h
    simp only [List.length_set]
    exact h1

/-- C14, the code at the failing input.  A result without rows writes to no record.  For
the single locator `"x.mp3"` and an empty result, the completion sets `loaded`, but the
record keeps what the constructor gave it: empty `artist` and `album`, no substitution
recorded, so `get` returns the empty string, not a null value, as `rawArtist` and
`rawAlbum`. -/
theorem C14_empty_result_keeps_defaults (m : PlaylistModel) (sender : TrackQuery) :
    (∃ m1, m.onQueryFinished sender [] = some m1 ∧ m1.m_tracks = m.m_tracks) ∧
    ∃ m1, (PlaylistModel.init.componentComplete ["x.mp3"]).onQueryFinished
        { url := "x.mp3", trackIndex := 0 } [] = some m1 ∧
      m1.m_loaded = true ∧
      m1.m_tracks = [{ url := "x.mp3", title := "", artist := "", unknownArtist := false,
                       album := "", unknownAlbum := false, duration := none }] ∧
      m1.get 0 = some { title := "", url := "x.mp3", duration := none, artist := "",
                        rawArtist := some "", album := "", rawAlbum := some "" } := by
  constructor
  · obtain ⟨m1, h1, h2, _⟩ := onQueryFinished_nil m sender
    exact ⟨m1, h1, h2⟩
  · exact ⟨_, rfl, rfl, rfl, rfl⟩

/-- The submission loop, started with the loop counter at the number of records already
present: every query carries the position of the record that holds its locator. -/
theorem submitLoop_queries (urls : List String) :
    ∀ (m : PlaylistModel) (i : Nat), i = m.m_tracks.length →
      (∀ s ∈ m.m_queries, ∃ n : Nat, s.trackIndex = (n : Int) ∧
        (m.m_tracks.map (fun t => t.url))[n]? = some s.url) →
      (∀ s ∈ (m.submitLoop i urls).m_queries, ∃ n : Nat, s.trackIndex = (n : Int) ∧
        ((m.submitLoop i urls).m_tracks.map (fun t => t.url))[n]? = some s.url) ∧
      (m.submitLoop i urls).m_tracks.map (fun t => t.url)
        = m.m_tracks.map (fun t => t.url) ++ urls := by
  induction urls with
  | nil =>
    intro m i _ hq
    exact ⟨hq, by simp [PlaylistModel.submitLoop]⟩
  | cons u us ih =>
    intro m i hi hq
    have hstep := ih
      { m with
        m_tracks := m.m_tracks ++ [PlaylistTrack.ofUrl u]
        m_queries := m.m_queries ++ [{ url := u, trackIndex := (i : Int) }] }
      (i + 1) (by simp [hi]) (by
        intro s hs
        rcases List.mem_append.mp hs with h | h
        · obtain ⟨n, h1, h2⟩ := hq s h
          refine ⟨n, h1, ?_⟩
          have hn : n < (m.m_tracks.map (fun t => t.url)).length :=
            (List.getElem?_eq_some.mp h2).1
          simp only [List.map_append]
          rw [List.getElem?_append_left hn]
          exact h2
        · rw [List.mem_singleton] at h
          subst h
          refine ⟨i, rfl, ?_⟩
          simp only [List.map_append, List.map_cons, List.map_nil]
          rw [List.getElem?_append_right (by simp [hi])]
          simp [hi, PlaylistTrack.ofUrl])
    refine ⟨hstep.1, ?_⟩
    rw [PlaylistModel.submitLoop, hstep.2]
    simp [PlaylistTrack.ofUrl]

/-- After `componentComplete` on a new model every submitted query carries the position of
the record that holds its locator, and the records hold the locators in playlist order. -/
theorem componentComplete_queries (tracksList : List String) :
    (∀ s ∈ (PlaylistModel.init.componentComplete tracksList).m_queries,
      ∃ n : Nat, s.trackIndex = (n : Int) ∧
        ((PlaylistModel.init.componentComplete tracksList).m_tracks.map
          (fun t => t.url))[n]? = some s.url) ∧
    (PlaylistModel.init.componentComplete tracksList).m_tracks.map (fun t => t.url)
      = tracksList := by
  unfold PlaylistModel.componentComplete
  split
  · rename_i h
    have : tracksList = [] := List.isEmpty_iff.mp h
    subst this
    refine ⟨?_, rfl⟩
    intro s hs
    cases hs
  · have := submitLoop_queries tracksList PlaylistModel.init 0 rfl (by
      intro s hs
      cases hs)
    refine ⟨this.1, ?_⟩
    rw [this.2]
    rfl

/-- The fields of a record after the writes for a row: title and duration from the row
(empty and `0` for invalid columns), artist and album from the row or else the placeholder
with the substitution recorded; the locator is kept. -/
theorem fill_eq (track : PlaylistTrack) (row : QSparqlResultRow) :
    track.fill row =
      { url := track.url
        title := row.title.getD ""
        artist := row.artist.getD "Unknown artist"
        unknownArtist := row.artist.isNone || track.unknownArtist
        album := row.album.getD "Unknown album"
        unknownAlbum := row.album.isNone || track.unknownAlbum
        duration := some (row.duration.getD 0) } := by
  unfold PlaylistTrack.fill
  cases row.artist <;> cases row.album <;> rfl

/-- What a completion whose `trackIndex` is a valid position writes: the record at that
position becomes the fill of the first row of the result (it is left as it is when the
result has no rows), and the count of loaded tracks goes up by one. -/
theorem onQueryFinished_written (m : PlaylistModel) (sender : TrackQuery)
    (rows : List QSparqlResultRow) (n : Nat) (hidx : sender.trackIndex = (n : Int))
    (hn : n < m.m_tracks.length) :
    ∃ m2, m.onQueryFinished sender rows = some m2 ∧
      m2.m_tracks[n]? =
        some ((rows.head?.map (fun row => m.m_tracks[n].fill row)).getD m.m_tracks[n]) ∧
      m2.m_loadedTracks = m.m_loadedTracks + 1 ∧
      m2.m_tracks.length = m.m_tracks.length ∧
      (m.m_loadedTracks + 1 = (m.m_tracks.length : Int) →
        m2.m_loaded = true ∧ m2.m_rowCount = (m.m_tracks.length : Int)) := by
  cases rows with
  | nil =>
    unfold PlaylistModel.onQueryFinished
    dsimp only
    split
    · rename_i h
      exact ⟨_, rfl, List.getElem?_eq_getElem hn, rfl, rfl, fun _ => ⟨rfl, rfl⟩⟩
    · rename_i h
      exact ⟨_, rfl, List.getElem?_eq_getElem hn, rfl, rfl, fun h1 => absurd h1 h⟩
  | cons row rest =>
    unfold PlaylistModel.onQueryFinished
    simp only [hidx, Int.ofNat_nonneg, if_true, Int.toNat_ofNat, List.getElem?_eq_getElem hn]
    split
    · rename_i h
      refine ⟨_, rfl, ?_, rfl, ?_, fun _ => ⟨rfl, ?_⟩⟩
      · simp only [List.head?_cons, Option.map_some', Option.getD_some]
        exact List.getElem?_set_self hn
      · simp only [List.length_set]
      · simp only [List.length_set]
    · rename_i h
      refine ⟨_, rfl, ?_, rfl, ?_, fun h1 => ?_⟩
      · simp only [List.head?_cons, Option.map_some', Option.getD_some]
        exact List.getElem?_set_self hn
      · simp only [List.length_set]
      · exfalso
        apply h
        simp only [List.length_set]
        exact h1

/-- Completions whose queries carry valid positions for their locators can be delivered in
any order: all are defined and the locators stay where they are. -/
theorem runFinished_of_valid (urls : List String)
    (events : List (TrackQuery × List QSparqlResultRow)) :
    ∀ (m : PlaylistModel), m.m_tracks.map (fun t => t.url) = urls →
      (∀ e ∈ events, ∃ n : Nat, e.1.trackIndex = (n : Int) ∧ urls[n]? = some e.1.url) →
      ∃ m1, m.runFinished events = some m1 ∧ m1.m_tracks.map (fun t => t.url) = urls := by
  induction events with
  | nil => intro m hm _; exact ⟨m, rfl, hm⟩
  | cons e es ih =>
    intro m hm hev
    obtain ⟨n, hidx, hurl⟩ := hev e (List.mem_cons_self _ _)
    have hn : n < m.m_tracks.length := by
      have := (List.getElem?_eq_some.mp hurl).1
      rw [← hm, List.length_map] at this
      exact this
    obtain ⟨m2, h2, hurls, _⟩ := onQueryFinished_of_valid m e.1 e.2 n hidx hn
    obtain ⟨m1, h1, hm1⟩ := ih m2 (by rw [hurls, hm])
      (fun e1 he1 => hev e1 (List.mem_cons_of_mem _ he1))
    refine ⟨m1, ?_, hm1⟩
    rw [PlaylistModel.runFinished, h2]
    exact h1

/-- C15, amended.  When no track is removed between `componentComplete` and the
completions: after any earlier completions `pre` of submitted queries, delivered in any
order, the completion of a submitted query `sender` is defined (its `m_tracks.at` is in
range), the record at its position holds the locator the query was submitted for before
and after the call, that record receives the metadata of the first row of the result
(title and duration of the row, artist and album of the row or else the placeholder with
the substitution recorded; with a result without rows no record is written), no other
record is changed, and the count of loaded tracks goes up by one.  The record is found by the position stored in the query at
submission. -/
theorem C15_completions_without_removal (tracksList : List String)
    (pre : List (TrackQuery × List QSparqlResultRow)) (sender : TrackQuery)
    (rows : List QSparqlResultRow)
    (hpre : ∀ e ∈ pre, e.1 ∈ (PlaylistModel.init.componentComplete tracksList).m_queries)
    (hs : sender ∈ (PlaylistModel.init.componentComplete tracksList).m_queries) :
    ∃ (m1 m2 : PlaylistModel) (n : Nat),
      (PlaylistModel.init.componentComplete tracksList).runFinished pre = some m1 ∧
      m1.onQueryFinished sender rows = some m2 ∧
      sender.trackIndex = (n : Int) ∧
      (m1.m_tracks[n]?).map (fun t => t.url) = some sender.url ∧
      (m2.m_tracks[n]?).map (fun t => t.url) = some sender.url ∧
      (∀ j, j ≠ n → m2.m_tracks[j]? = m1.m_tracks[j]?) ∧
      m2.m_tracks.map (fun t => t.url) = tracksList ∧
      m2.m_tracks[n]? = (m1.m_tracks[n]?).map
        (fun t => (rows.head?.map (fun row => t.fill row)).getD t) ∧
      (∀ row rest, rows = row :: rest →
        ∃ before, m1.m_tracks[n]? = some before ∧
          m2.m_tracks[n]? = some
            { url := before.url
              title := row.title.getD ""
              artist := row.artist.getD "Unknown artist"
              unknownArtist := row.artist.isNone || before.unknownArtist
              album := row.album.getD "Unknown album"
              unknownAlbum := row.album.isNone || before.unknownAlbum
              duration := some (row.duration.getD 0) }) ∧
      (rows = [] → m2.m_tracks = m1.m_tracks) ∧
      m2.m_loadedTracks = m1.m_loadedTracks + 1 := by
  obtain ⟨hq, hurls⟩ := componentComplete_queries tracksList
  rw [hurls] at hq
  obtain ⟨m1, hrun, hm1⟩ := runFinished_of_valid tracksList pre _ hurls
    (fun e he => hq e.1 (hpre e he))
  obtain ⟨n, hidx, hurl⟩ := hq sender hs
  have hn : n < m1.m_tracks.length := by
    have := (List.getElem?_eq_some.mp hurl).1
    rw [← hm1, List.length_map] at this
    exact this
  obtain ⟨m2, h2, hurls2, hother⟩ := onQueryFinished_of_valid m1 sender rows n hidx hn
  obtain ⟨m3, h3, hrec, hcount, _, _⟩ := onQueryFinished_written m1 sender rows n hidx hn
  have h32 : m3 = m2 := Option.some.inj (h3.symm.trans h2)
  subst h32
  refine ⟨m1, m3, n, hrun, h2, hidx, ?_, ?_, hother, by rw [hurls2, hm1], ?_, ?_, ?_,
    hcount⟩
  · rw [← List.getElem?_map, hm1]; exact hurl
  · rw [← List.getElem?_map, hurls2, hm1]; exact hurl
  · rw [hrec, List.getElem?_eq_getElem hn]
    rfl
  · intro row rest hrows
    refine ⟨m1.m_tracks[n], List.getElem?_eq_getElem hn, ?_⟩
    rw [hrec, hrows]
    simp only [List.head?_cons, Option.map_some', Option.getD_some, fill_eq]
  · intro hrows
    obtain ⟨m4, h4, htr, _⟩ := onQueryFinished_nil m1 sender
    rw [hrows] at h2
    have h43 : m4 = m3 := Option.some.inj (h4.symm.trans h2)
    rw [← h43]; exact htr

/-- C15, witness: locators `a, b`; the completion for `b` arrives first, then the one for
`a`. -/
theorem C15_completions_without_removal_witness :
    ∃ (m1 m2 : PlaylistModel) (n : Nat),
      (PlaylistModel.init.componentComplete ["a", "b"]).runFinished
        [({ url := "b", trackIndex := 1 }, [⟨some "B", some 2, some "artist", none⟩])] = some m1 ∧
      m1.onQueryFinished { url := "a", trackIndex := 0 } [⟨some "A", some 1, none, none⟩]
        = some m2 ∧
      (0 : Int) = (n : Int) ∧
      (m1.m_tracks[n]?).map (fun t => t.url) = some "a" ∧
      (m2.m_tracks[n]?).map (fun t => t.url) = some "a" ∧
      (∀ j, j ≠ n → m2.m_tracks[j]? = m1.m_tracks[j]?) ∧
      m2.m_tracks.map (fun t => t.url) = ["a", "b"] ∧
      m2.m_tracks[n]? = (m1.m_tracks[n]?).map
        (fun t => ((([⟨some "A", some 1, none, none⟩] : List QSparqlResultRow).head?).map
          (fun row => t.fill row)).getD t) ∧
      (∀ row rest, ([⟨some "A", some 1, none, none⟩] : List QSparqlResultRow) = row :: rest →
        ∃ before, m1.m_tracks[n]? = some before ∧
          m2.m_tracks[n]? = some
            { url := before.url
              title := row.title.getD ""
              artist := row.artist.getD "Unknown artist"
              unknownArtist := row.artist.isNone || before.unknownArtist
              album := row.album.getD "Unknown album"
              unknownAlbum := row.album.isNone || before.unknownAlbum
              duration := some (row.duration.getD 0) }) ∧
      (([⟨some "A", some 1, none, none⟩] : List QSparqlResultRow) = [] →
        m2.m_tracks = m1.m_tracks) ∧
      m2.m_loadedTracks = m1.m_loadedTracks + 1 :=
  C15_completions_without_removal ["a", "b"]
    [({ url := "b", trackIndex := 1 }, [⟨some "B", some 2, some "artist", none⟩])]
    { url := "a", trackIndex := 0 } [⟨some "A", some 1, none, none⟩]
    (by decide) (by decide)

/-- C15 as stated fails: locators `a, b` are submitted and `removeAtIndexes([0])` removes
`a` before any completion.  The completion for the removed `a` (position 0) is not a
no-op: it writes the metadata of `a` into the record of `b`.  The completion for `b`
(position 1) reads `m_tracks.at(1)` in a list of length one: it is undefined. -/
theorem C15_counterexample :
    ∃ m1, (PlaylistModel.init.componentComplete ["a", "b"]).removeAtIndexes [0] = some m1 ∧
      m1.m_tracks = [PlaylistTrack.ofUrl "b"] ∧
      (m1.onQueryFinished { url := "a", trackIndex := 0 }
          [⟨some "title of a", some 1, some "artist of a", some "album of a"⟩]).map
        (fun m2 => m2.m_tracks)
        = some [{ url := "b", title := "title of a", artist := "artist of a",
                  unknownArtist := false, album := "album of a", unknownAlbum := false,
                  duration := some 1 }] ∧
      m1.onQueryFinished { url := "b", trackIndex := 1 }
          [⟨some "title of b", some 2, some "artist of b", some "album of b"⟩] = none :=
  ⟨_, rfl, rfl, rfl, rfl⟩

end Unplayer
